import Mathlib

/-!
# Case Converter Pro: text transformations and recent-history list

A shallow embedding of `script.js`.  A JavaScript string is modelled as a list
of characters, one `Char` per UTF-16 code unit.  The regular expressions of the
source are modelled by matchers that give the length of the match the
JavaScript engine finds at a position, and `String.prototype.replace` /
`String.prototype.split` by scanners that run those matchers left to right.
-/

namespace CaseConverter

/-- A JavaScript string, one character per code unit. -/
abbrev Text := List Char

/-! ## Character classes of the regular expressions -/

/-- The class `[A-Z]`. -/
def isUpperAZ (c : Char) : Bool := decide (65 ≤ c.toNat) && decide (c.toNat ≤ 90)

/-- The class `[a-z]`. -/
def isLowerAZ (c : Char) : Bool := decide (97 ≤ c.toNat) && decide (c.toNat ≤ 122)

/-- The class `[0-9]`. -/
def isDigit09 (c : Char) : Bool := decide (48 ≤ c.toNat) && decide (c.toNat ≤ 57)

/-- The class `[a-zA-Z0-9]`. -/
def isAlnum (c : Char) : Bool := isLowerAZ c || isUpperAZ c || isDigit09 c

/-- The class `\w`, which is `[A-Za-z0-9_]`. -/
def isWordChar (c : Char) : Bool := isAlnum c || decide (c.toNat = 95)

/-- The class `\s` (and the characters removed by `trim`): the white space and
line terminator code points of ECMAScript. -/
def isSpaceChar (c : Char) : Bool :=
  let n := c.toNat
  decide (n = 9) || decide (n = 10) || decide (n = 11) || decide (n = 12) || decide (n = 13)
    || decide (n = 32) || decide (n = 160) || decide (n = 5760)
    || (decide (8192 ≤ n) && decide (n ≤ 8202))
    || decide (n = 8232) || decide (n = 8233) || decide (n = 8239) || decide (n = 8287)
    || decide (n = 12288) || decide (n = 65279)

/-- The class `[\.\!\?]`. -/
def isSentenceEnd (c : Char) : Bool :=
  decide (c.toNat = 46) || decide (c.toNat = 33) || decide (c.toNat = 63)

/-! ## Case mapping of the platform

`String.prototype.toUpperCase` and `toLowerCase`, given exactly for the code
units U+0000 to U+00FF (Basic Latin and Latin-1 Supplement).  Code units above
U+00FF are outside the table and are returned unchanged. -/

/-- Upper-case form of one code unit; `ß` expands to `SS`. -/
def upperOf (c : Char) : Text :=
  let n := c.toNat
  if 97 ≤ n ∧ n ≤ 122 then [Char.ofNat (n - 32)]
  else if n = 181 then [Char.ofNat 924]
  else if n = 223 then [Char.ofNat 83, Char.ofNat 83]
  else if 224 ≤ n ∧ n ≤ 254 ∧ n ≠ 247 then [Char.ofNat (n - 32)]
  else if n = 255 then [Char.ofNat 376]
  else [c]

/-- Lower-case form of one code unit. -/
def lowerOf (c : Char) : Text :=
  let n := c.toNat
  if 65 ≤ n ∧ n ≤ 90 then [Char.ofNat (n + 32)]
  else if 192 ≤ n ∧ n ≤ 222 ∧ n ≠ 215 then [Char.ofNat (n + 32)]
  else [c]

/-- The method `str.toUpperCase()`. -/
def toUpperCase (str : Text) : Text := str.flatMap upperOf

/-- The method `str.toLowerCase()`. -/
def toLowerCase (str : Text) : Text := str.flatMap lowerOf

/-- The method `str.trim()`. -/
def trim (str : Text) : Text :=
  ((str.dropWhile isSpaceChar).reverse.dropWhile isSpaceChar).reverse

/-! ## Regular expression matching, `replace` and `split` -/

/-- A regular expression as seen by a scanner: given the index of a position,
the character before it (if any) and the text from it on, the length of the
match that starts there, `none` when there is none. -/
abbrev Matcher := Nat → Option Char → Text → Option Nat

/-- Whether the position between `prev` and the head of `rest` is a word
boundary (`\b`). -/
def atWordBoundary (prev : Option Char) (rest : Text) : Bool :=
  prev.any isWordChar != rest.head?.any isWordChar

/-- Scanner for `str.replace(re, fn)` with a global `re` that matches no empty
string: `skip` counts the characters of the current match still to be passed. -/
def replaceGo (re : Matcher) (fn : Text → Nat → Text) :
    Nat → Nat → Option Char → Text → Text
  | _, _, _, [] => []
  | skip + 1, index, _, c :: cs => replaceGo re fn skip (index + 1) (some c) cs
  | 0, index, prev, c :: cs =>
    match re index prev (c :: cs) with
    | some (n + 1) => fn ((c :: cs).take (n + 1)) index ++ replaceGo re fn n (index + 1) (some c) cs
    | _ => c :: replaceGo re fn 0 (index + 1) (some c) cs

/-- The method `str.replace(re, fn)` for a global regular expression `re` and a
callback `fn(match, index)`. -/
def replaceAll (re : Matcher) (fn : Text → Nat → Text) (str : Text) : Text :=
  replaceGo re fn 0 0 none str

/-- The regular expression `/\b\w+/g`. -/
def reWordRun : Matcher := fun _ prev rest =>
  if atWordBoundary prev rest then
    match (rest.takeWhile isWordChar).length with
    | 0 => none
    | n + 1 => some (n + 1)
  else none

/-! ## Conversion algorithms -/

/-- The array `minorWords` of `toTitleCase`. -/
def minorWords : List Text :=
  ["a".toList, "an".toList, "the".toList, "and".toList, "but".toList, "or".toList,
   "for".toList, "nor".toList, "on".toList, "at".toList, "to".toList, "from".toList,
   "by".toList, "in".toList, "of".toList]

/-- The callback of `toTitleCase`. -/
def titleWord (word : Text) (index : Nat) : Text :=
  if index = 0 ∨ ¬ word ∈ minorWords then toUpperCase (word.take 1) ++ word.drop 1
  else word

/-- The function `toTitleCase(str)`. -/
def toTitleCase (str : Text) : Text :=
  replaceAll reWordRun titleWord (toLowerCase str)

/-- The part `\s*\w` of a pattern: the white space run and the word character
after it. -/
def spaceThenWord (rest : Text) : Option Nat :=
  let ws := rest.takeWhile isSpaceChar
  match (rest.drop ws.length).head? with
  | some c => if isWordChar c then some (ws.length + 1) else none
  | none => none

/-- The regular expression `/(^\s*\w|[\.\!\?]\s*\w)/g`. -/
def reSentenceStart : Matcher := fun index _ rest =>
  match (if index = 0 then spaceThenWord rest else none) with
  | some n => some n
  | none =>
    match rest with
    | c :: cs => if isSentenceEnd c then (spaceThenWord cs).map (· + 1) else none
    | [] => none

/-- The regular expression `/(?:^\w|[A-Z]|\b\w)/g`. -/
def reCamelStart : Matcher := fun index prev rest =>
  match rest with
  | [] => none
  | c :: _ =>
    if index = 0 ∧ isWordChar c = true then some 1
    else if isUpperAZ c = true then some 1
    else if atWordBoundary prev rest = true ∧ isWordChar c = true then some 1
    else none

/-- The length of the run matched by `x+` for a character class `x`. -/
def runOf (cls : Char → Bool) (rest : Text) : Option Nat :=
  match (rest.takeWhile cls).length with
  | 0 => none
  | n + 1 => some (n + 1)

/-- The regular expression `/\s+/g`. -/
def reSpaceRun : Matcher := fun _ _ rest => runOf isSpaceChar rest

/-- The regular expression `/\W+/g`. -/
def reNonWordRun : Matcher := fun _ _ rest => runOf (fun c => !isWordChar c) rest

/-- The regular expression `/[^a-zA-Z0-9]/g`. -/
def reNonAlnum : Matcher := fun _ _ rest =>
  match rest with
  | c :: _ => if isAlnum c then none else some 1
  | [] => none

/-- The regular expression `/_/g`. -/
def reUnderscore : Matcher := fun _ _ rest =>
  match rest with
  | c :: _ => if c.toNat = 95 then some 1 else none
  | [] => none

/-- The regular expression `/ |\B(?=[A-Z])/` of `toSnakeCase`: a space, or the
empty string at a non-boundary followed by an upper-case letter. -/
def reSnakeSep : Matcher := fun _ prev rest =>
  match rest with
  | [] => none
  | c :: _ =>
    if c.toNat = 32 then some 1
    else if atWordBoundary prev rest = false ∧ isUpperAZ c = true then some 0
    else none

/-- Put a character in front of the first piece of a split. -/
def pushHead (c : Char) : List Text → List Text
  | [] => [[c]]
  | t :: ts => (c :: t) :: ts

/-- Scanner for `str.split(re)` on a non-empty string.  `skip` counts the
characters of the current separator still to be passed, `fresh` tells that the
piece being read is still empty (position `q` equals `p` in the algorithm of
the language), where an empty match is not a separator. -/
def splitGo (re : Matcher) : Nat → Nat → Option Char → Bool → Text → List Text
  | _, _, _, _, [] => [[]]
  | skip + 1, index, _, _, c :: cs => splitGo re skip (index + 1) (some c) true cs
  | 0, index, prev, fresh, c :: cs =>
    match re index prev (c :: cs) with
    | none => pushHead c (splitGo re 0 (index + 1) (some c) false cs)
    | some 0 =>
      if fresh then pushHead c (splitGo re 0 (index + 1) (some c) false cs)
      else [] :: pushHead c (splitGo re 0 (index + 1) (some c) false cs)
    | some (n + 1) => [] :: splitGo re n (index + 1) (some c) true cs

/-- The method `str.split(re)`. -/
def split (re : Matcher) (str : Text) : List Text :=
  match str with
  | [] => if (re 0 none []).isSome then [] else [[]]
  | _ :: _ => splitGo re 0 0 none true str

/-- The method `arr.join(sep)`. -/
def join (sep : Text) (arr : List Text) : Text := sep.intercalate arr

/-- The function `toSentenceCase(str)`. -/
def toSentenceCase (str : Text) : Text :=
  replaceAll reSentenceStart (fun c _ => toUpperCase c) (toLowerCase str)

/-- The function `toCamelCase(str)`. -/
def toCamelCase (str : Text) : Text :=
  replaceAll reNonAlnum (fun _ _ => [])
    (replaceAll reSpaceRun (fun _ _ => [])
      (replaceAll reCamelStart
        (fun word index => if index = 0 then toLowerCase word else toUpperCase word) str))

/-- The function `toSnakeCase(str)`. -/
def toSnakeCase (str : Text) : Text :=
  join "_".toList
    ((split reSnakeSep (replaceAll reNonWordRun (fun _ _ => " ".toList) str)).map toLowerCase)

/-- The function `toKebabCase(str)`. -/
def toKebabCase (str : Text) : Text :=
  replaceAll reUnderscore (fun _ _ => "-".toList) (toSnakeCase str)

/-! ## History -/

/-- An element of `state.history`: the object `{ text, type, time }`. -/
structure HistoryEntry where
  text : Text
  type : Text
  time : Nat
  deriving DecidableEq, Repr

/-- The function `addToHistory(text, type)` on `state.history`; `now` is the
value of `Date.now()`. -/
def addToHistory (history : List HistoryEntry) (text type : Text) (now : Nat) :
    List HistoryEntry :=
  if trim text = [] then history
  else if 0 < history.length ∧ history.head?.map HistoryEntry.text = some text then history
  else
    let unshifted := { text := text, type := type, time := now } :: history
    if 5 < unshifted.length then unshifted.dropLast else unshifted

/-- A sequence of `addToHistory` calls, each with its text, its label and the
clock value at the call. -/
def recordAll (history : List HistoryEntry) (calls : List (Text × Text × Nat)) :
    List HistoryEntry :=
  calls.foldl (fun h call => addToHistory h call.1 call.2.1 call.2.2) history

/-- A text that is empty or made of white space only. -/
def isBlank (text : Text) : Bool := text.all isSpaceChar

/-- The maximal runs of a text: the pieces of neighbouring characters that are
all inside or all outside the class `cls`, in their order. -/
def segments (cls : Char → Bool) : Text → List Text
  | [] => []
  | c :: cs =>
    match segments cls cs with
    | (d :: r) :: rest =>
      if cls c = cls d then (c :: d :: r) :: rest else [c] :: (d :: r) :: rest
    | _ => [[c]]

/-- Whether a run is a run of characters of the class `cls`. -/
def isRunOf (cls : Char → Bool) (seg : Text) : Bool :=
  match seg with
  | c :: _ => cls c
  | [] => false

/-- A word with its first character upper-cased. -/
def capitalize (word : Text) : Text := toUpperCase (word.take 1) ++ word.drop 1

/-- Title case as the specification words it, on the runs of the lower-cased
text: a word token is capitalised unless it is a minor word, and the first word
token of the string is capitalised wherever it starts. `firstWord` tells that
no word token has been passed yet. -/
def titleCaseSpecGo (firstWord : Bool) : List Text → List Text
  | [] => []
  | seg :: rest =>
    if isRunOf isWordChar seg then
      (if firstWord = true ∨ ¬ seg ∈ minorWords then capitalize seg else seg)
        :: titleCaseSpecGo false rest
    else seg :: titleCaseSpecGo firstWord rest

/-- Title case as the specification words it. -/
def titleCaseSpec (text : Text) : Text :=
  (titleCaseSpecGo true (segments isWordChar (toLowerCase text))).flatten

/-- Title case with the amended rule for minor words: a word token is
capitalised unless it is a minor word that does not start at index 0.
`atStart` tells that the run starts at index 0. -/
def titleCaseAmendedGo (atStart : Bool) : List Text → List Text
  | [] => []
  | seg :: rest =>
    (if isRunOf isWordChar seg = true ∧ (atStart = true ∨ ¬ seg ∈ minorWords)
      then capitalize seg else seg) :: titleCaseAmendedGo false rest

/-- Title case with the amended rule for minor words. -/
def titleCaseAmended (text : Text) : Text :=
  (titleCaseAmendedGo true (segments isWordChar (toLowerCase text))).flatten

/-- Sentence case as the specification words it, on the lower-cased text: the
first alphanumeric character of the string is upper-cased, and so is the first
alphanumeric character after a `.`, `!` or `?` with only white space in
between. `pendingFirst` tells that no alphanumeric character has been passed
yet, `afterEnd` that only white space has been passed since a sentence end. -/
def sentenceCaseSpecGo (pendingFirst afterEnd : Bool) : Text → Text
  | [] => []
  | c :: cs =>
    (if isAlnum c && (pendingFirst || afterEnd) then toUpperCase [c] else [c])
      ++ sentenceCaseSpecGo (pendingFirst && !isAlnum c)
          (isSentenceEnd c || (afterEnd && isSpaceChar c)) cs

/-- Sentence case as the specification words it. -/
def sentenceCaseSpec (text : Text) : Text :=
  sentenceCaseSpecGo true false (toLowerCase text)

/-- Sentence case with the amended rule for the start of the string: the first
alphanumeric character of the string is upper-cased only when nothing but
white space stands before it. `leading` tells that only white space has been
passed since the start of the string. -/
def sentenceCaseAmendedGo (leading afterEnd : Bool) : Text → Text
  | [] => []
  | c :: cs =>
    (if isAlnum c && (leading || afterEnd) then toUpperCase [c] else [c])
      ++ sentenceCaseAmendedGo (leading && isSpaceChar c)
          (isSentenceEnd c || (afterEnd && isSpaceChar c)) cs

/-- Sentence case with the amended rule for the start of the string. -/
def sentenceCaseAmended (text : Text) : Text :=
  sentenceCaseAmendedGo true false (toLowerCase text)

/-- Camel case as the specification words it, on the maximal runs of
alphanumeric characters: the first token all lower-case, every later token
with its first character upper-cased and the rest lower-cased, separators
dropped. `first` tells that no token has been passed yet. -/
def camelCaseSpecGo (first : Bool) : List Text → List Text
  | [] => []
  | seg :: rest =>
    if isRunOf isAlnum seg then
      (if first then toLowerCase seg else toUpperCase (seg.take 1) ++ toLowerCase (seg.drop 1))
        :: camelCaseSpecGo false rest
    else camelCaseSpecGo first rest

/-- Camel case as the specification words it. -/
def camelCaseSpec (text : Text) : Text :=
  (camelCaseSpecGo true (segments isAlnum text)).flatten

/-- Camel case, amended, on the maximal runs of word characters: a token has
its first character lower-cased when it starts at index 0 and upper-cased
otherwise, its other characters are kept, and its underscores are dropped;
the runs between tokens are dropped. `atStart` tells that the run starts at
index 0. -/
def camelCaseAmendedGo (atStart : Bool) : List Text → List Text
  | [] => []
  | seg :: rest =>
    (if isRunOf isWordChar seg then
      ((if atStart then toLowerCase (seg.take 1) else toUpperCase (seg.take 1))
        ++ seg.drop 1).filter isAlnum
     else []) :: camelCaseAmendedGo false rest

/-- Camel case, amended. -/
def camelCaseAmended (text : Text) : Text :=
  (camelCaseAmendedGo true (segments isWordChar text)).flatten

/-- The pieces of a text as the specification words the splitting of snake
case: every non-word character ends a piece, and a piece also ends between a
lower-case letter and an upper-case letter. -/
def snakeTokensSpec : Text → List Text
  | [] => [[]]
  | c :: cs =>
    if isWordChar c then
      match cs with
      | d :: _ =>
        if isLowerAZ c && isUpperAZ d then [c] :: snakeTokensSpec cs
        else pushHead c (snakeTokensSpec cs)
      | [] => [[c]]
    else [] :: snakeTokensSpec cs

/-- Snake case as the specification words it: the non-empty pieces, each
lower-cased, joined with `_`. -/
def snakeCaseSpec (text : Text) : Text :=
  join "_".toList (((snakeTokensSpec text).filter (fun t => !t.isEmpty)).map toLowerCase)

/-- The pieces of a text, amended: a whole run of non-word characters is one
separator, a piece also ends before an upper-case letter that follows a word
character, and the pieces before a leading and after a trailing separator are
kept, empty. -/
def snakeTokensAmended : Text → List Text
  | [] => [[]]
  | c :: cs =>
    if isWordChar c then
      match cs with
      | d :: _ =>
        if isUpperAZ d then [c] :: snakeTokensAmended cs
        else pushHead c (snakeTokensAmended cs)
      | [] => [[c]]
    else
      match cs with
      | d :: _ => if isWordChar d then [] :: snakeTokensAmended cs else snakeTokensAmended cs
      | [] => [[], []]

/-- Snake case, amended: all the pieces, each lower-cased, joined with `_`. -/
def snakeCaseAmended (text : Text) : Text :=
  join "_".toList ((snakeTokensAmended text).map toLowerCase)

/-- The text after `str.replace(/\W+/g, " ")`, computed directly: every maximal
run of non-word characters becomes one space. -/
def collapseNonWord : Text → Text
  | [] => []
  | c :: cs =>
    if isWordChar c then c :: collapseNonWord cs
    else
      match cs with
      | d :: _ => if isWordChar d then ' ' :: collapseNonWord cs else collapseNonWord cs
      | [] => [' ']

/-- A character with `_` turned into `-`. -/
def dashForUnderscore (c : Char) : Char := if c.toNat = 95 then '-' else c

/-! ## Loading the history: `JSON.parse` and `localStorage` -/

/-- A value of JSON as `JSON.parse` returns it.  A number is kept as its sign,
its digits and its power of ten: it stands for `± digits * 10 ^ exponent`. -/
inductive Json where
  | null
  | bool (b : Bool)
  | num (negative : Bool) (digits : Nat) (exponent : Int)
  | str (s : Text)
  | arr (items : List Json)
  | obj (members : List (Text × Json))

/-- White space of the JSON grammar: space, tab, line feed, carriage return. -/
def isJsonSpace (c : Char) : Bool :=
  decide (c.toNat = 32) || decide (c.toNat = 9) || decide (c.toNat = 10) || decide (c.toNat = 13)

/-- The value of a hexadecimal digit. -/
def hexValue (c : Char) : Option Nat :=
  if isDigit09 c then some (c.toNat - 48)
  else if 97 ≤ c.toNat ∧ c.toNat ≤ 102 then some (c.toNat - 87)
  else if 65 ≤ c.toNat ∧ c.toNat ≤ 70 then some (c.toNat - 55)
  else none

/-- The characters of a JSON string after its opening quote, with the text
after the closing quote.  An escape `\uXXXX` gives the code unit `XXXX`;
surrogate code units are outside the model. -/
def parseStringBody : Text → Option (Text × Text)
  | [] => none
  | c :: rest =>
    if c.toNat = 34 then some ([], rest)
    else if c.toNat = 92 then
      match rest with
      | [] => none
      | e :: rest2 =>
        if e.toNat = 117 then
          match rest2 with
          | h1 :: h2 :: h3 :: h4 :: rest3 =>
            match hexValue h1, hexValue h2, hexValue h3, hexValue h4 with
            | some a, some b, some c2, some d =>
              (parseStringBody rest3).map
                (fun r => (Char.ofNat (((a * 16 + b) * 16 + c2) * 16 + d) :: r.1, r.2))
            | _, _, _, _ => none
          | _ => none
        else
          let plain : Option Char :=
            if e.toNat = 34 ∨ e.toNat = 92 ∨ e.toNat = 47 then some e
            else if e.toNat = 98 then some (Char.ofNat 8)
            else if e.toNat = 102 then some (Char.ofNat 12)
            else if e.toNat = 110 then some (Char.ofNat 10)
            else if e.toNat = 114 then some (Char.ofNat 13)
            else if e.toNat = 116 then some (Char.ofNat 9)
            else none
          match plain with
          | some x => (parseStringBody rest2).map (fun r => (x :: r.1, r.2))
          | none => none
    else if c.toNat < 32 then none
    else (parseStringBody rest).map (fun r => (c :: r.1, r.2))

/-- The number written by a run of decimal digits. -/
def digitsValue (ds : Text) : Nat := ds.foldl (fun n d => n * 10 + (d.toNat - 48)) 0

/-- A JSON number at the head of a text, with the text after it. -/
def parseNumber (s : Text) : Option (Json × Text) :=
  let negative := s.head? = some '-'
  let s1 := if negative then s.drop 1 else s
  let intDigits := s1.takeWhile isDigit09
  let s2 := s1.drop intDigits.length
  if intDigits = [] ∨ (intDigits.head? = some '0' ∧ intDigits.length ≠ 1) then none
  else
    let fracDigits := if s2.head? = some '.' then (s2.drop 1).takeWhile isDigit09 else []
    let s3 := if s2.head? = some '.' then s2.drop (1 + fracDigits.length) else s2
    if s2.head? = some '.' ∧ fracDigits = [] then none
    else
      let mantissa := digitsValue (intDigits ++ fracDigits)
      if s3.head? = some 'e' ∨ s3.head? = some 'E' then
        let s4 := s3.drop 1
        let expNegative := s4.head? = some '-'
        let s5 := if s4.head? = some '-' ∨ s4.head? = some '+' then s4.drop 1 else s4
        let expDigits := s5.takeWhile isDigit09
        if expDigits = [] then none
        else
          let e : Int := if expNegative then - (digitsValue expDigits : Int) else digitsValue expDigits
          some (Json.num negative mantissa (e - fracDigits.length), s5.drop expDigits.length)
      else some (Json.num negative mantissa (- (fracDigits.length : Int)), s3)

/-- A string, a literal name or a number at the head of a text, with the text
after it. -/
def parseScalar (s : Text) : Option (Json × Text) :=
  match s with
  | [] => none
  | c :: rest =>
    if c.toNat = 34 then (parseStringBody rest).map (fun r => (Json.str r.1, r.2))
    else if s.take 4 = "null".toList then some (Json.null, s.drop 4)
    else if s.take 4 = "true".toList then some (Json.bool true, s.drop 4)
    else if s.take 5 = "false".toList then some (Json.bool false, s.drop 5)
    else parseNumber s

/-- The key of an object member and its colon, with the text after the colon. -/
def parseKey (s : Text) : Option (Text × Text) :=
  match s.dropWhile isJsonSpace with
  | q :: afterQuote =>
    if q.toNat = 34 then
      match parseStringBody afterQuote with
      | some (key, rest) =>
        match rest.dropWhile isJsonSpace with
        | colon :: rest2 => if colon.toNat = 58 then some (key, rest2) else none
        | [] => none
      | none => none
    else none
  | [] => none

/-- What the parser is reading: one value, the rest of an array, or the rest of
an object. -/
inductive ParseMode where
  | value
  | items (acc : List Json)
  | members (acc : List (Text × Json))

/-- The recursive descent of `JSON.parse`, with a bound on its depth. -/
def parseJson : Nat → ParseMode → Text → Option (Json × Text)
  | 0, _, _ => none
  | fuel + 1, ParseMode.value, s =>
    match s.dropWhile isJsonSpace with
    | [] => none
    | c :: rest =>
      if c.toNat = 91 then
        match rest.dropWhile isJsonSpace with
        | d :: rest2 =>
          if d.toNat = 93 then some (Json.arr [], rest2)
          else parseJson fuel (ParseMode.items []) rest
        | [] => none
      else if c.toNat = 123 then
        match rest.dropWhile isJsonSpace with
        | d :: rest2 =>
          if d.toNat = 125 then some (Json.obj [], rest2)
          else parseJson fuel (ParseMode.members []) rest
        | [] => none
      else parseScalar (c :: rest)
  | fuel + 1, ParseMode.items acc, s =>
    match parseJson fuel ParseMode.value s with
    | none => none
    | some (v, rest) =>
      match rest.dropWhile isJsonSpace with
      | d :: rest2 =>
        if d.toNat = 44 then parseJson fuel (ParseMode.items (acc ++ [v])) rest2
        else if d.toNat = 93 then some (Json.arr (acc ++ [v]), rest2)
        else none
      | [] => none
  | fuel + 1, ParseMode.members acc, s =>
    match parseKey s with
    | none => none
    | some (key, rest) =>
      match parseJson fuel ParseMode.value rest with
      | none => none
      | some (v, rest2) =>
        match rest2.dropWhile isJsonSpace with
        | d :: rest3 =>
          if d.toNat = 44 then parseJson fuel (ParseMode.members (acc ++ [(key, v)])) rest3
          else if d.toNat = 125 then some (Json.obj (acc ++ [(key, v)]), rest3)
          else none
        | [] => none

/-- The function `JSON.parse(text)`: `none` stands for the `SyntaxError` it
throws on a text that is not JSON. -/
def jsonParse (text : Text) : Option Json :=
  match parseJson (2 * text.length + 2) ParseMode.value text with
  | some (v, rest) => if rest.dropWhile isJsonSpace = [] then some v else none
  | none => none

/-- Whether a number of JSON becomes the number 0: its digits are 0, or it is
at most `2 ^ (-1075)`, half the least positive double. -/
def numberIsZero (digits : Nat) (exponent : Int) : Bool :=
  decide (digits = 0) ||
    (decide (exponent < 0) && decide (digits * 2 ^ 1075 ≤ 10 ^ exponent.natAbs))

/-- Whether a value is falsy, so that `value || []` is `[]`. -/
def Json.isFalsy : Json → Bool
  | Json.null => true
  | Json.bool b => !b
  | Json.num _ digits exponent => numberIsZero digits exponent
  | Json.str s => s.isEmpty
  | _ => false

/-- What the initialiser of `state` leaves in `state.history`: a value, or the
error thrown while the script starts. -/
inductive Loaded where
  | threw
  | value (history : Json)

/-- The initialiser `JSON.parse(localStorage.getItem('caseHistory')) || []` of
`state.history`; `stored` is what `getItem` returns, `none` for `null`, which
`JSON.parse` reads as the text `null`. -/
def loadHistory (stored : Option Text) : Loaded :=
  match jsonParse (stored.getD "null".toList) with
  | none => Loaded.threw
  | some v => Loaded.value (if v.isFalsy then Json.arr [] else v)

set_option maxRecDepth 100000

theorem trim_eq_nil_iff (t : Text) : trim t = [] ↔ isBlank t = true := by
  unfold trim isBlank
  rw [List.reverse_eq_nil_iff, List.dropWhile_eq_nil_iff]
  constructor
  · intro h
    have h2 : t.dropWhile isSpaceChar = [] := by
      cases hd : t.dropWhile isSpaceChar with
      | nil => rfl
      | cons a l =>
        have hna := List.head_dropWhile_not isSpaceChar t (by simp [hd])
        have := h a (by simp [hd])
        simp [hd, this] at hna
    rw [List.dropWhile_eq_nil_iff] at h2
    simpa using h2
  · intro h x hx
    have hx2 : x ∈ t := (List.dropWhile_sublist isSpaceChar).subset (by simpa using hx)
    exact (List.all_eq_true.mp h) x hx2

theorem addToHistory_of_blank (s : List HistoryEntry) (t l : Text) (now : Nat)
    (h : isBlank t = true) : addToHistory s t l now = s := by
  unfold addToHistory
  rw [if_pos ((trim_eq_nil_iff t).mpr h)]

theorem addToHistory_of_head (s : List HistoryEntry) (t l : Text) (now : Nat)
    (h : s.head?.map HistoryEntry.text = some t) : addToHistory s t l now = s := by
  unfold addToHistory
  split
  · rfl
  · have : 0 < s.length := by
      cases s with
      | nil => simp at h
      | cons a r => simp
    rw [if_pos ⟨this, h⟩]

theorem addToHistory_of_new (s : List HistoryEntry) (t l : Text) (now : Nat)
    (hb : isBlank t = false) (hh : s.head?.map HistoryEntry.text ≠ some t) :
    addToHistory s t l now
      = if 5 ≤ s.length then ({ text := t, type := l, time := now } :: s).dropLast
        else { text := t, type := l, time := now } :: s := by
  unfold addToHistory
  have h1 : ¬ trim t = [] := by
    rw [trim_eq_nil_iff]; simp [hb]
  rw [if_neg h1, if_neg (fun h => hh h.2)]
  simp only [List.length_cons]
  by_cases h5 : 5 ≤ s.length
  · rw [if_pos h5, if_pos (by omega)]
  · rw [if_neg h5, if_neg (by omega)]

theorem recordAll_append_one (s : List HistoryEntry) (calls : List (Text × Text × Nat))
    (c : Text × Text × Nat) :
    recordAll s (calls ++ [c]) = addToHistory (recordAll s calls) c.1 c.2.1 c.2.2 := by
  simp [recordAll, List.foldl_append]

theorem recordAll_texts (calls : List (Text × Text × Nat))
    (hd : (calls.map (fun c => c.1)).Pairwise (fun a b => a ≠ b))
    (hb : ∀ c ∈ calls, isBlank c.1 = false) :
    (recordAll [] calls).map HistoryEntry.text = ((calls.map (fun c => c.1)).reverse).take 5 := by
  induction calls using List.reverseRecOn with
  | nil => rfl
  | append_singleton cs c ih =>
    rw [recordAll_append_one]
    have hd2 : (cs.map (fun c => c.1)).Pairwise (fun a b => a ≠ b) := by
      rw [List.map_append, List.pairwise_append] at hd
      exact hd.1
    have hne : ∀ x ∈ cs.map (fun c => c.1), x ≠ c.1 := by
      rw [List.map_append, List.pairwise_append] at hd
      intro x hx
      exact hd.2.2 x hx c.1 (by simp)
    have ih2 := ih hd2 (fun x hx => hb x (by simp [hx]))
    have hlen : (recordAll [] cs).length = min 5 cs.length := by
      have := congrArg List.length ih2
      simpa using this
    have hhead : (recordAll [] cs).head?.map HistoryEntry.text ≠ some c.1 := by
      rw [← List.head?_map, ih2]
      intro h
      have hmem : c.1 ∈ ((cs.map (fun c => c.1)).reverse).take 5 := List.mem_of_mem_head? h
      have hmem2 : c.1 ∈ cs.map (fun c => c.1) := by
        have := List.mem_of_mem_take hmem
        simpa using this
      exact hne c.1 hmem2 rfl
    rw [addToHistory_of_new _ _ _ _ (hb c (by simp)) hhead]
    simp only [List.map_append, List.map_cons, List.map_nil, List.reverse_append,
      List.reverse_cons, List.reverse_nil, List.nil_append, List.singleton_append,
      List.take_succ_cons]
    by_cases h5 : 5 ≤ (recordAll [] cs).length
    · rw [if_pos h5]
      have hne2 : recordAll [] cs ≠ [] := by
        intro h; rw [h] at h5; simp at h5
      rw [List.dropLast_cons_of_ne_nil hne2]
      simp only [List.map_cons, List.map_dropLast, ih2]
      rw [List.dropLast_eq_take, List.take_take]
      congr 1
      have : (List.take 5 (List.map (fun c => c.1) cs).reverse).length = 5 := by
        rw [hlen] at h5
        simp only [List.length_take, List.length_reverse, List.length_map]
        omega
      rw [this]
      rfl
    · rw [if_neg h5]
      simp only [List.map_cons, ih2]
      congr 1
      rw [hlen] at h5
      have h4 : cs.length ≤ 4 := by omega
      rw [List.take_of_length_le (by simp; omega), List.take_of_length_le (by simp; omega)]

/-- C6: on a history of at most five entries, `addToHistory` changes nothing
when the text is blank or equals the text of the first entry, and otherwise
puts the new entry in front of the first `min |s| 4` old entries; so it changes
the history exactly when the text is not blank and differs from the head. -/
theorem addToHistory_contract (s : List HistoryEntry) (hs : s.length ≤ 5) (t l : Text)
    (now : Nat) :
    ((isBlank t = true ∨ (s ≠ [] ∧ s.head?.map HistoryEntry.text = some t)) →
        addToHistory s t l now = s) ∧
    (¬ (isBlank t = true ∨ (s ≠ [] ∧ s.head?.map HistoryEntry.text = some t)) →
        addToHistory s t l now
          = { text := t, type := l, time := now } :: s.take (min s.length 4)) ∧
    (addToHistory s t l now ≠ s ↔
        (isBlank t = false ∧ s.head?.map HistoryEntry.text ≠ some t)) := by
  have hnew : isBlank t = false → s.head?.map HistoryEntry.text ≠ some t →
      addToHistory s t l now
        = { text := t, type := l, time := now } :: s.take (min s.length 4) := by
    intro hb hh
    rw [addToHistory_of_new s t l now hb hh]
    by_cases h5 : 5 ≤ s.length
    · have h5e : s.length = 5 := by omega
      have hne : s ≠ [] := by
        intro h; rw [h] at h5; simp at h5
      rw [if_pos h5, List.dropLast_cons_of_ne_nil hne, List.dropLast_eq_take, h5e]
      rfl
    · rw [if_neg h5, List.take_of_length_le (by omega)]
  refine ⟨?_, ?_, ?_⟩
  · rintro (h | ⟨_, h⟩)
    · exact addToHistory_of_blank s t l now h
    · exact addToHistory_of_head s t l now h
  · intro h
    have hb : isBlank t = false := by
      cases hbt : isBlank t
      · rfl
      · exact absurd (Or.inl hbt) h
    have hh : s.head?.map HistoryEntry.text ≠ some t := by
      intro hh
      apply h
      refine Or.inr ⟨?_, hh⟩
      intro hs0
      rw [hs0] at hh
      simp at hh
    exact hnew hb hh
  · constructor
    · intro hne
      constructor
      · cases hbt : isBlank t
        · rfl
        · exact absurd (addToHistory_of_blank s t l now hbt) hne
      · intro hh
        exact hne (addToHistory_of_head s t l now hh)
    · rintro ⟨hb, hh⟩ heq
      rw [hnew hb hh] at heq
      cases s with
      | nil => simp at heq
      | cons a r =>
        simp only [List.head?_cons, Option.map_some', ne_eq, Option.some.injEq] at hh
        have := congrArg (fun x => x.head?.map HistoryEntry.text) heq
        simp at this
        exact hh this.symm

/-- Witness of C6: a history of one entry and a new text. -/
theorem addToHistory_contract_witness :
    addToHistory [{ text := "abc".toList, type := "UPPERCASE".toList, time := 1 }]
        "Abc".toList "Title Case".toList 2
      = [{ text := "Abc".toList, type := "Title Case".toList, time := 2 },
         { text := "abc".toList, type := "UPPERCASE".toList, time := 1 }] :=
  ((addToHistory_contract
      [{ text := "abc".toList, type := "UPPERCASE".toList, time := 1 }] (by decide)
      "Abc".toList "Title Case".toList 2).2.1 (by decide))

/-- C7: from the empty history, recording pairwise distinct non-blank texts
leaves the texts of the five most recent calls, newest first. -/
theorem recordAll_keeps_five_most_recent (calls : List (Text × Text × Nat))
    (hd : (calls.map (fun c => c.1)).Pairwise (fun a b => a ≠ b))
    (hb : ∀ c ∈ calls, isBlank c.1 = false) :
    (recordAll [] calls).map HistoryEntry.text
      = ((calls.map (fun c => c.1)).reverse).take 5 :=
  recordAll_texts calls hd hb

/-- Witness of C7: six distinct texts leave the last five, newest first. -/
theorem recordAll_keeps_five_most_recent_witness :
    (recordAll []
        [("t1".toList, "a".toList, 1), ("t2".toList, "a".toList, 2), ("t3".toList, "a".toList, 3),
         ("t4".toList, "a".toList, 4), ("t5".toList, "a".toList, 5),
         ("t6".toList, "a".toList, 6)]).map HistoryEntry.text
      = ["t6".toList, "t5".toList, "t4".toList, "t3".toList, "t2".toList] :=
  recordAll_keeps_five_most_recent
    [("t1".toList, "a".toList, 1), ("t2".toList, "a".toList, 2), ("t3".toList, "a".toList, 3),
     ("t4".toList, "a".toList, 4), ("t5".toList, "a".toList, 5), ("t6".toList, "a".toList, 6)]
    (by decide) (by decide)

theorem replaceGo_skip (re : Matcher) (fn : Text → Nat → Text) (a b : Text) (i : Nat)
    (prev : Option Char) :
    replaceGo re fn a.length i prev (a ++ b)
      = replaceGo re fn 0 (i + a.length) (if a = [] then prev else a.getLast?) b := by
  induction a generalizing i prev with
  | nil => simp
  | cons x xs ih =>
    show replaceGo re fn (xs.length + 1) i prev (x :: (xs ++ b)) = _
    rw [replaceGo, ih]
    have : i + 1 + xs.length = i + (x :: xs).length := by simp; omega
    rw [this]
    congr 1
    cases xs with
    | nil => simp
    | cons y ys => simp [List.getLast?_cons_cons]

theorem replaceGo_noMatch (re : Matcher) (fn : Text → Nat → Text) (c : Char) (cs : Text)
    (i : Nat) (prev : Option Char) (h : re i prev (c :: cs) = none) :
    replaceGo re fn 0 i prev (c :: cs) = c :: replaceGo re fn 0 (i + 1) (some c) cs := by
  simp [replaceGo, h]

theorem replaceGo_match (re : Matcher) (fn : Text → Nat → Text) (a b : Text) (i : Nat)
    (prev : Option Char) (ha : a ≠ []) (h : re i prev (a ++ b) = some a.length) :
    replaceGo re fn 0 i prev (a ++ b)
      = fn a i ++ replaceGo re fn 0 (i + a.length) a.getLast? b := by
  cases a with
  | nil => exact absurd rfl ha
  | cons x xs =>
    have h2 : re i prev (x :: (xs ++ b)) = some (xs.length + 1) := by simpa using h
    show replaceGo re fn 0 i prev (x :: (xs ++ b)) = _
    rw [replaceGo, h2]
    simp only []
    rw [replaceGo_skip]
    have e1 : List.take (xs.length + 1) (x :: (xs ++ b)) = x :: xs := by simp
    have e2 : i + 1 + xs.length = i + (x :: xs).length := by simp; omega
    rw [e1, e2]
    congr 2
    cases xs with
    | nil => simp
    | cons y ys => simp [List.getLast?_cons_cons]

/-! ### Maximal runs -/

theorem segments_cons_head (cls : Char → Bool) (d : Char) (cs : Text) :
    ∃ r rest, segments cls (d :: cs) = (d :: r) :: rest := by
  rw [segments]
  split
  · split
    · exact ⟨_, _, rfl⟩
    · exact ⟨_, _, rfl⟩
  · exact ⟨_, _, rfl⟩

theorem segments_run (cls : Char → Bool) (b : Bool) (w rest : Text) (hw : w ≠ [])
    (hall : ∀ x ∈ w, cls x = b) (hrest : ∀ d ∈ rest.head?, cls d ≠ b) :
    segments cls (w ++ rest) = w :: segments cls rest := by
  induction w with
  | nil => exact absurd rfl hw
  | cons x xs ih =>
    cases xs with
    | nil =>
      cases rest with
      | nil => simp [segments]
      | cons d r =>
        obtain ⟨r2, rest2, h2⟩ := segments_cons_head cls d r
        have hd : cls d ≠ b := hrest d (by simp)
        have hx : cls x = b := hall x (by simp)
        show segments cls (x :: d :: r) = _
        rw [segments, h2]
        simp only []
        rw [if_neg (by rw [hx]; exact fun h => hd h.symm)]
    | cons y ys =>
      have ih2 := ih (by simp) (fun z hz => hall z (by simp [hz]))
      have hx : cls x = b := hall x (by simp)
      have hy : cls y = b := hall y (by simp)
      show segments cls (x :: (y :: ys ++ rest)) = _
      rw [segments, ih2]
      simp only []
      rw [if_pos (by rw [hx, hy])]

/-- Every text is empty or starts with a maximal run of the class of its first
character. -/
theorem exists_run (cls : Char → Bool) (c : Char) (cs : Text) :
    ∃ w rest, c :: cs = w ++ rest ∧ w ≠ [] ∧ (∀ x ∈ w, cls x = cls c) ∧
      (∀ d ∈ rest.head?, cls d ≠ cls c) ∧ rest.length < (c :: cs).length := by
  refine ⟨(c :: cs).takeWhile (fun x => cls x == cls c),
    (c :: cs).dropWhile (fun x => cls x == cls c), ?_, ?_, ?_, ?_, ?_⟩
  · exact (List.takeWhile_append_dropWhile _ _).symm
  · simp [List.takeWhile_cons]
  · intro x hx
    have := List.mem_takeWhile_imp hx
    simpa using this
  · intro d hd
    have hne : (c :: cs).dropWhile (fun x => cls x == cls c) ≠ [] := by
      intro h; rw [h] at hd; simp at hd
    have h1 := List.head_dropWhile_not (fun x => cls x == cls c) (c :: cs) hne
    have h2 : ((c :: cs).dropWhile (fun x => cls x == cls c)).head hne = d := by
      have := List.head?_eq_head hne
      rw [this] at hd
      simpa using hd
    rw [h2] at h1
    simpa using h1
  · simp [List.dropWhile_cons]
    exact Nat.lt_succ_of_le (List.dropWhile_sublist _).length_le

/-! ### Title case -/

theorem takeWhile_run (p : Char → Bool) (w rest : Text) (hall : ∀ x ∈ w, p x = true)
    (hrest : ∀ d ∈ rest.head?, p d = false) : (w ++ rest).takeWhile p = w := by
  induction w with
  | nil =>
    cases rest with
    | nil => rfl
    | cons d r => simp [List.takeWhile_cons, hrest d (by simp)]
  | cons x xs ih =>
    simp only [List.cons_append, List.takeWhile_cons, hall x (by simp), if_true]
    rw [ih (fun z hz => hall z (by simp [hz]))]

theorem reWordRun_nonword (i : Nat) (prev : Option Char) (c : Char) (cs : Text)
    (hc : isWordChar c = false) : reWordRun i prev (c :: cs) = none := by
  unfold reWordRun
  split
  · simp [List.takeWhile_cons, hc]
  · rfl

theorem reWordRun_word (i : Nat) (prev : Option Char) (w rest : Text) (hw : w ≠ [])
    (hprev : prev.any isWordChar = false) (hall : ∀ x ∈ w, isWordChar x = true)
    (hrest : ∀ d ∈ rest.head?, isWordChar d = false) :
    reWordRun i prev (w ++ rest) = some w.length := by
  unfold reWordRun
  rw [takeWhile_run isWordChar w rest hall hrest]
  cases w with
  | nil => exact absurd rfl hw
  | cons x xs =>
    have hx := hall x (by simp)
    simp [atWordBoundary, hprev, hx]

theorem replaceGo_wordRun_nonword (fn : Text → Nat → Text) (a b : Text) (i : Nat)
    (prev : Option Char) (ha : a ≠ []) (hall : ∀ x ∈ a, isWordChar x = false) :
    replaceGo reWordRun fn 0 i prev (a ++ b)
      = a ++ replaceGo reWordRun fn 0 (i + a.length) a.getLast? b := by
  induction a generalizing i prev with
  | nil => exact absurd rfl ha
  | cons x xs ih =>
    show replaceGo reWordRun fn 0 i prev (x :: (xs ++ b)) = _
    rw [replaceGo_noMatch _ _ _ _ _ _ (reWordRun_nonword i prev x _ (hall x (by simp)))]
    cases xs with
    | nil => simp
    | cons y ys =>
      rw [ih (i + 1) (some x) (by simp) (fun z hz => hall z (by simp [hz]))]
      simp only [List.length_cons, List.cons_append, List.getLast?_cons_cons]
      have e : i + 1 + (ys.length + 1) = i + (ys.length + 1 + 1) := by omega
      rw [e]

theorem titleWord_eq (w : Text) (i : Nat) :
    titleWord w i = if i = 0 ∨ ¬ w ∈ minorWords then capitalize w else w := rfl

theorem title_scan (n : Nat) : ∀ (L : Text), L.length ≤ n → ∀ (i : Nat) (prev : Option Char),
    (prev.any isWordChar = false ∨ ∀ d ∈ L.head?, isWordChar d = false) →
    replaceGo reWordRun titleWord 0 i prev L
      = (titleCaseAmendedGo (decide (i = 0)) (segments isWordChar L)).flatten := by
  induction n with
  | zero =>
    intro L hL i prev _
    have : L = [] := List.length_eq_zero.mp (Nat.le_zero.mp hL)
    subst this
    simp [replaceGo, segments, titleCaseAmendedGo]
  | succ n ih =>
    intro L hL i prev hinv
    cases L with
    | nil => simp [replaceGo, segments, titleCaseAmendedGo]
    | cons c cs =>
      obtain ⟨w, rest, hsplit, hw, hall, hrest, hlen⟩ := exists_run isWordChar c cs
      have hrl : rest.length ≤ n := by
        simp only [List.length_cons] at hL hlen
        omega
      have hwl : i + w.length ≠ 0 := by
        have : 0 < w.length := List.length_pos.mpr hw
        omega
      rw [hsplit, segments_run isWordChar (isWordChar c) w rest hw hall hrest]
      simp only [titleCaseAmendedGo, List.flatten_cons]
      cases hc : isWordChar c with
      | true =>
        rw [hc] at hall hrest
        have hprev : prev.any isWordChar = false := by
          rcases hinv with h | h
          · exact h
          · have := h c (by simp)
            rw [hc] at this
            exact absurd this (by simp)
        have hrest2 : ∀ d ∈ rest.head?, isWordChar d = false := by
          intro d hd
          simpa using hrest d hd
        rw [replaceGo_match _ _ w rest i prev hw
          (reWordRun_word i prev w rest hw hprev hall hrest2)]
        rw [ih rest hrl (i + w.length) _ (Or.inr hrest2)]
        have hrun : isRunOf isWordChar w = true := by
          cases w with
          | nil => exact absurd rfl hw
          | cons x xs => exact hall x (by simp)
        simp only [titleWord_eq, hrun, true_and, decide_eq_true_eq, hwl, decide_False]
      | false =>
        rw [hc] at hall hrest
        rw [replaceGo_wordRun_nonword _ w rest i prev hw hall]
        have hlast : (w.getLast?).any isWordChar = false := by
          cases hg : w.getLast? with
          | none => rfl
          | some z =>
            have := hall z (List.mem_of_mem_getLast? hg)
            simpa using this
        rw [ih rest hrl (i + w.length) _ (Or.inl hlast)]
        have hrun : isRunOf isWordChar w = false := by
          cases w with
          | nil => exact absurd rfl hw
          | cons x xs => exact hall x (by simp)
        simp [hrun, hwl]

theorem toTitleCase_eq_amended (text : Text) : toTitleCase text = titleCaseAmended text := by
  unfold toTitleCase titleCaseAmended replaceAll
  rw [title_scan _ _ (le_refl _) 0 none (Or.inl rfl)]
  rfl

/-- C1, as stated, fails: a minor word that is the first word of the string but
starts after a space stays lower-case. -/
theorem toTitleCase_first_word_after_space :
    toTitleCase " the lord".toList = " the Lord".toList ∧
      titleCaseSpec " the lord".toList = " The Lord".toList ∧
      toTitleCase " the lord".toList ≠ titleCaseSpec " the lord".toList := by
  decide

/-- C1, amended: `toTitleCase` gives the lower-cased text in which every word
token has its first character upper-cased, except that a minor word stays
lower-case unless it starts at index 0 of the string; the replacement pass does
so on any text, whatever the lower-casing of the platform returns; the empty
text gives the empty text and `the lord of the rings` gives
`The Lord of the Rings`. -/
theorem toTitleCase_amended :
    (∀ text : Text, toTitleCase text = titleCaseAmended text) ∧
      (∀ lowered : Text, replaceAll reWordRun titleWord lowered
        = (titleCaseAmendedGo true (segments isWordChar lowered)).flatten) ∧
      toTitleCase [] = [] ∧
      toTitleCase "the lord of the rings".toList = "The Lord of the Rings".toList :=
  ⟨toTitleCase_eq_amended,
    fun lowered => title_scan _ lowered (le_refl _) 0 none (Or.inl rfl), by decide, by decide⟩

/-! ### Character classes -/

theorem word_not_space (c : Char) (h : isWordChar c = true) : isSpaceChar c = false := by
  simp only [isWordChar, isAlnum, isLowerAZ, isUpperAZ, isDigit09, Bool.or_eq_true,
    Bool.and_eq_true, decide_eq_true_eq] at h
  simp only [isSpaceChar, Bool.or_eq_false_iff, Bool.and_eq_false_iff, decide_eq_false_iff_not]
  omega

theorem word_not_sentenceEnd (c : Char) (h : isWordChar c = true) : isSentenceEnd c = false := by
  simp only [isWordChar, isAlnum, isLowerAZ, isUpperAZ, isDigit09, Bool.or_eq_true,
    Bool.and_eq_true, decide_eq_true_eq] at h
  simp only [isSentenceEnd, Bool.or_eq_false_iff, decide_eq_false_iff_not]
  omega

theorem space_not_sentenceEnd (c : Char) (h : isSpaceChar c = true) :
    isSentenceEnd c = false := by
  simp only [isSpaceChar, Bool.or_eq_true, Bool.and_eq_true, decide_eq_true_eq] at h
  simp only [isSentenceEnd, Bool.or_eq_false_iff, decide_eq_false_iff_not]
  omega

theorem alnum_word (c : Char) (h : isAlnum c = true) : isWordChar c = true := by
  simp [isWordChar, h]

theorem space_not_alnum (c : Char) (h : isSpaceChar c = true) : isAlnum c = false := by
  cases ha : isAlnum c with
  | false => rfl
  | true => rw [word_not_space c (alnum_word c ha)] at h; exact absurd h (by simp)

theorem upperOf_space (c : Char) (h : isSpaceChar c = true) : upperOf c = [c] := by
  simp only [isSpaceChar, Bool.or_eq_true, Bool.and_eq_true, decide_eq_true_eq] at h
  unfold upperOf
  simp only []
  rw [if_neg (by omega), if_neg (by omega), if_neg (by omega), if_neg (by omega),
    if_neg (by omega)]

theorem upperOf_sentenceEnd (c : Char) (h : isSentenceEnd c = true) : upperOf c = [c] := by
  simp only [isSentenceEnd, Bool.or_eq_true, decide_eq_true_eq] at h
  unfold upperOf
  simp only []
  rw [if_neg (by omega), if_neg (by omega), if_neg (by omega), if_neg (by omega),
    if_neg (by omega)]

theorem upperOf_word_not_alnum (c : Char) (h : isWordChar c = true) (ha : isAlnum c = false) :
    upperOf c = [c] := by
  simp only [isWordChar, ha, Bool.false_or, decide_eq_true_eq] at h
  unfold upperOf
  simp only []
  rw [if_neg (by omega), if_neg (by omega), if_neg (by omega), if_neg (by omega),
    if_neg (by omega)]

/-! ### Sentence case -/

theorem toUpperCase_append (a b : Text) : toUpperCase (a ++ b) = toUpperCase a ++ toUpperCase b := by
  simp [toUpperCase]

theorem toUpperCase_cons (c : Char) (cs : Text) :
    toUpperCase (c :: cs) = upperOf c ++ toUpperCase cs := by
  simp [toUpperCase]

theorem toUpperCase_spaces (ws : Text) (h : ∀ x ∈ ws, isSpaceChar x = true) :
    toUpperCase ws = ws := by
  induction ws with
  | nil => rfl
  | cons x xs ih =>
    rw [toUpperCase_cons, upperOf_space x (h x (by simp)), ih (fun z hz => h z (by simp [hz]))]
    rfl

theorem drop_length_takeWhile (p : Char → Bool) (L : Text) :
    L.drop (L.takeWhile p).length = L.dropWhile p := by
  induction L with
  | nil => rfl
  | cons x xs ih =>
    by_cases h : p x = true
    · simp [List.takeWhile_cons, List.dropWhile_cons, h, ih]
    · simp [List.takeWhile_cons, List.dropWhile_cons, h]

theorem spaceThenWord_some (L : Text) (n : Nat) (h : spaceThenWord L = some n) :
    ∃ ws w rest, L = ws ++ w :: rest ∧ (∀ x ∈ ws, isSpaceChar x = true) ∧
      isWordChar w = true ∧ n = ws.length + 1 := by
  unfold spaceThenWord at h
  have hsplit := List.takeWhile_append_dropWhile isSpaceChar L
  have hdrop := drop_length_takeWhile isSpaceChar L
  simp only [hdrop] at h
  cases hd : L.dropWhile isSpaceChar with
  | nil => simp [hd] at h
  | cons w rest =>
    simp only [hd, List.head?_cons] at h
    by_cases hw : isWordChar w = true
    · rw [if_pos hw] at h
      refine ⟨L.takeWhile isSpaceChar, w, rest, ?_, ?_, hw, ?_⟩
      · rw [← hd]; exact hsplit.symm
      · intro x hx; exact List.mem_takeWhile_imp hx
      · exact (Option.some.inj h).symm
    · rw [if_neg hw] at h
      exact absurd h (by simp)

theorem spaceThenWord_none (L : Text) (h : spaceThenWord L = none) :
    ∃ ws rest, L = ws ++ rest ∧ (∀ x ∈ ws, isSpaceChar x = true) ∧
      ∀ d ∈ rest.head?, isSpaceChar d = false ∧ isWordChar d = false := by
  unfold spaceThenWord at h
  have hsplit := List.takeWhile_append_dropWhile isSpaceChar L
  have hdrop := drop_length_takeWhile isSpaceChar L
  simp only [hdrop] at h
  refine ⟨L.takeWhile isSpaceChar, L.dropWhile isSpaceChar, hsplit.symm, ?_, ?_⟩
  · intro x hx; exact List.mem_takeWhile_imp hx
  · intro d hd
    cases hdw : L.dropWhile isSpaceChar with
    | nil => rw [hdw] at hd; simp at hd
    | cons w rest =>
      rw [hdw] at hd
      simp only [List.head?_cons, Option.mem_def, Option.some.injEq] at hd
      subst hd
      constructor
      · have := List.head_dropWhile_not isSpaceChar L (by simp [hdw])
        simpa [hdw] using this
      · simp only [hdw, List.head?_cons] at h
        by_cases hw : isWordChar w = true
        · rw [if_pos hw] at h; exact absurd h (by simp)
        · simpa using hw

theorem amended_spaces (ws r : Text) (lead aft : Bool)
    (h : ∀ x ∈ ws, isSpaceChar x = true) :
    sentenceCaseAmendedGo lead aft (ws ++ r) = ws ++ sentenceCaseAmendedGo lead aft r := by
  induction ws with
  | nil => rfl
  | cons x xs ih =>
    have hx := h x (by simp)
    show sentenceCaseAmendedGo lead aft (x :: (xs ++ r)) = _
    rw [sentenceCaseAmendedGo, space_not_alnum x hx, hx, space_not_sentenceEnd x hx]
    simp only [Bool.and_true, Bool.false_or, Bool.false_and]
    rw [ih (fun z hz => h z (by simp [hz]))]
    simp

theorem amended_word (w : Char) (r : Text) (lead aft : Bool) (hw : isWordChar w = true)
    (hf : (lead || aft) = true) :
    sentenceCaseAmendedGo lead aft (w :: r)
      = toUpperCase [w] ++ sentenceCaseAmendedGo false false r := by
  rw [sentenceCaseAmendedGo, word_not_space w hw, word_not_sentenceEnd w hw, hf]
  cases ha : isAlnum w with
  | true => simp
  | false =>
    have : toUpperCase [w] = [w] := by
      rw [toUpperCase_cons, upperOf_word_not_alnum w hw ha]; rfl
    simp [this]

theorem amended_plain (c : Char) (cs : Text) :
    sentenceCaseAmendedGo false false (c :: cs)
      = c :: sentenceCaseAmendedGo false (isSentenceEnd c) cs := by
  rw [sentenceCaseAmendedGo]
  simp

theorem amended_indep (cs : Text) (lead aft : Bool) (h : spaceThenWord cs = none) :
    sentenceCaseAmendedGo lead aft cs = sentenceCaseAmendedGo false false cs := by
  obtain ⟨ws, rest, hsplit, hws, hrest⟩ := spaceThenWord_none cs h
  rw [hsplit, amended_spaces ws rest lead aft hws, amended_spaces ws rest false false hws]
  congr 1
  cases rest with
  | nil => rfl
  | cons d r =>
    obtain ⟨hs, hwd⟩ := hrest d (by simp)
    have ha : isAlnum d = false := by
      cases ha : isAlnum d with
      | false => rfl
      | true => rw [alnum_word d ha] at hwd; exact absurd hwd (by simp)
    rw [sentenceCaseAmendedGo, sentenceCaseAmendedGo, ha, hs]
    simp

theorem reSentenceStart_first (prev : Option Char) (L : Text) (n : Nat)
    (h : spaceThenWord L = some n) : reSentenceStart 0 prev L = some n := by
  simp [reSentenceStart, h]

theorem reSentenceStart_later (i : Nat) (prev : Option Char) (c : Char) (cs : Text)
    (h : i ≠ 0 ∨ spaceThenWord (c :: cs) = none) :
    reSentenceStart i prev (c :: cs)
      = if isSentenceEnd c then (spaceThenWord cs).map (· + 1) else none := by
  unfold reSentenceStart
  have : (if i = 0 then spaceThenWord (c :: cs) else none) = none := by
    rcases h with h | h
    · rw [if_neg h]
    · rw [h]; simp
  rw [this]

theorem sentence_scan (n : Nat) : ∀ (L : Text), L.length ≤ n → ∀ (i : Nat) (prev : Option Char),
    replaceGo reSentenceStart (fun c _ => toUpperCase c) 0 i prev L
      = sentenceCaseAmendedGo (decide (i = 0)) false L := by
  induction n with
  | zero =>
    intro L hL i prev
    have : L = [] := List.length_eq_zero.mp (Nat.le_zero.mp hL)
    subst this
    simp [replaceGo, sentenceCaseAmendedGo]
  | succ n ih =>
    intro L hL i prev
    cases L with
    | nil => simp [replaceGo, sentenceCaseAmendedGo]
    | cons c cs =>
      by_cases hA : i = 0 ∧ ∃ m, spaceThenWord (c :: cs) = some m
      · obtain ⟨hi, m, hm⟩ := hA
        subst hi
        obtain ⟨ws, w, rest, hsplit, hws, hw, hmn⟩ := spaceThenWord_some _ _ hm
        have hL2 : c :: cs = (ws ++ [w]) ++ rest := by rw [hsplit]; simp
        have hre : reSentenceStart 0 prev ((ws ++ [w]) ++ rest) = some (ws ++ [w]).length := by
          rw [← hL2]
          rw [reSentenceStart_first prev _ m hm, hmn]
          simp
        have hrl : rest.length ≤ n := by
          have := congrArg List.length hL2
          simp only [List.length_cons, List.length_append, List.length_nil] at this hL
          omega
        rw [hL2, replaceGo_match _ _ (ws ++ [w]) rest 0 prev (by simp) hre,
          ih rest hrl _ _]
        have hne : (0 + (ws ++ [w]).length = 0) = False := by simp
        simp only [hne, decide_False, decide_True]
        rw [List.append_assoc, amended_spaces ws _ true false hws]
        simp only [List.singleton_append]
        rw [amended_word w rest true false hw rfl, toUpperCase_append,
          toUpperCase_spaces ws hws, List.append_assoc]
      · have hB : i ≠ 0 ∨ spaceThenWord (c :: cs) = none := by
          by_cases hi : i = 0
          · right
            cases hs : spaceThenWord (c :: cs) with
            | none => rfl
            | some m => exact absurd ⟨hi, m, hs⟩ hA
          · left; exact hi
        have hspec : sentenceCaseAmendedGo (decide (i = 0)) false (c :: cs)
            = sentenceCaseAmendedGo false false (c :: cs) := by
          rcases hB with h | h
          · simp [h]
          · exact amended_indep _ _ _ h
        rw [hspec, amended_plain]
        have hre := reSentenceStart_later i prev c cs hB
        cases hse : isSentenceEnd c with
        | false =>
          rw [hse] at hre
          simp only [Bool.false_eq_true, if_false] at hre
          rw [replaceGo_noMatch _ _ _ _ _ _ hre, ih cs (by simpa using hL)]
          simp
        | true =>
          rw [hse] at hre
          simp only [if_true] at hre
          cases hs : spaceThenWord cs with
          | none =>
            rw [hs] at hre
            rw [replaceGo_noMatch _ _ _ _ _ _ (by simpa using hre), ih cs (by simpa using hL)]
            rw [amended_indep cs false true hs]
            simp
          | some m =>
            obtain ⟨ws, w, rest, hsplit, hws, hw, hmn⟩ := spaceThenWord_some _ _ hs
            have hL2 : c :: cs = (c :: ws ++ [w]) ++ rest := by rw [hsplit]; simp
            have hre2 : reSentenceStart i prev ((c :: ws ++ [w]) ++ rest)
                = some (c :: ws ++ [w]).length := by
              rw [← hL2, hre, hs, hmn]
              simp
            have hrl : rest.length ≤ n := by
              have := congrArg List.length hL2
              simp only [List.length_cons, List.length_append, List.length_nil] at this hL
              omega
            rw [hL2, replaceGo_match _ _ (c :: ws ++ [w]) rest i prev (by simp) hre2,
              ih rest hrl _ _]
            have hne : (i + (c :: ws ++ [w]).length = 0) = False := by simp
            simp only [hne, decide_False]
            rw [hsplit, amended_spaces ws _ false true hws,
              amended_word w rest false true hw rfl]
            rw [List.cons_append, toUpperCase_cons, upperOf_sentenceEnd c hse,
              toUpperCase_append, toUpperCase_spaces ws hws]
            simp

theorem toSentenceCase_eq_amended (text : Text) :
    toSentenceCase text = sentenceCaseAmended text := by
  unfold toSentenceCase sentenceCaseAmended replaceAll
  rw [sentence_scan _ _ (le_refl _) 0 none]
  rfl

/-- C4, as stated, fails: the first alphanumeric character of the string is not
upper-cased when something other than white space stands before it. -/
theorem toSentenceCase_after_hyphen :
    toSentenceCase "-hello".toList = "-hello".toList ∧
      sentenceCaseSpec "-hello".toList = "-Hello".toList ∧
      toSentenceCase "-hello".toList ≠ sentenceCaseSpec "-hello".toList := by
  decide

/-- C4, amended: `toSentenceCase` gives the lower-cased text in which exactly
these characters are upper-cased: the first alphanumeric character of the
string when only white space stands before it, and the first alphanumeric
character after each `.`, `!` or `?` with only white space in between; the
replacement pass does so on any text, whatever the lower-casing of the
platform returns. -/
theorem toSentenceCase_amended :
    (∀ text : Text, toSentenceCase text = sentenceCaseAmended text) ∧
      (∀ lowered : Text, replaceAll reSentenceStart (fun c _ => toUpperCase c) lowered
        = sentenceCaseAmendedGo true false lowered) ∧
      toSentenceCase "hello world. how are you? fine!".toList
        = "Hello world. How are you? Fine!".toList :=
  ⟨toSentenceCase_eq_amended,
    fun lowered => sentence_scan _ lowered (le_refl _) 0 none, by decide⟩

/-! ### Camel case -/

theorem upperOf_upperAZ (c : Char) (h : isUpperAZ c = true) : upperOf c = [c] := by
  simp only [isUpperAZ, Bool.and_eq_true, decide_eq_true_eq] at h
  unfold upperOf
  simp only []
  rw [if_neg (by omega), if_neg (by omega), if_neg (by omega), if_neg (by omega),
    if_neg (by omega)]

theorem upperAZ_word (c : Char) (h : isUpperAZ c = true) : isWordChar c = true := by
  simp [isWordChar, isAlnum, h]

theorem nonword_not_alnum (c : Char) (h : isWordChar c = false) : isAlnum c = false := by
  cases ha : isAlnum c with
  | false => rfl
  | true => rw [alnum_word c ha] at h; exact absurd h (by simp)

theorem replaceGo_nonAlnum (s : Text) (i : Nat) (prev : Option Char) :
    replaceGo reNonAlnum (fun _ _ => []) 0 i prev s = s.filter isAlnum := by
  induction s generalizing i prev with
  | nil => rfl
  | cons c cs ih =>
    cases hc : isAlnum c with
    | true =>
      rw [replaceGo_noMatch _ _ _ _ _ _ (by simp [reNonAlnum, hc]), ih]
      simp [List.filter_cons, hc]
    | false =>
      have hre : reNonAlnum i prev ([c] ++ cs) = some [c].length := by simp [reNonAlnum, hc]
      have := replaceGo_match reNonAlnum (fun _ _ => []) [c] cs i prev (by simp) hre
      rw [List.singleton_append] at this
      rw [this, ih]
      simp [List.filter_cons, hc]

theorem runOf_eq (cls : Char → Bool) (w rest : Text) (hw : w ≠ [])
    (hall : ∀ x ∈ w, cls x = true) (hrest : ∀ d ∈ rest.head?, cls d = false) :
    runOf cls (w ++ rest) = some w.length := by
  unfold runOf
  rw [takeWhile_run cls w rest hall hrest]
  cases w with
  | nil => exact absurd rfl hw
  | cons x xs => rfl

theorem runOf_none (cls : Char → Bool) (c : Char) (cs : Text) (hc : cls c = false) :
    runOf cls (c :: cs) = none := by
  simp [runOf, List.takeWhile_cons, hc]

theorem filter_alnum_spaceRun (n : Nat) : ∀ (s : Text), s.length ≤ n →
    ∀ (i : Nat) (prev : Option Char),
    (replaceGo reSpaceRun (fun _ _ => []) 0 i prev s).filter isAlnum = s.filter isAlnum := by
  induction n with
  | zero =>
    intro s hs i prev
    have : s = [] := List.length_eq_zero.mp (Nat.le_zero.mp hs)
    subst this
    rfl
  | succ n ih =>
    intro s hs i prev
    cases s with
    | nil => rfl
    | cons c cs =>
      cases hc : isSpaceChar c with
      | false =>
        rw [replaceGo_noMatch _ _ _ _ _ _ (runOf_none isSpaceChar c cs hc)]
        simp only [List.filter_cons]
        rw [ih cs (by simpa using hs)]
      | true =>
        obtain ⟨w, rest, hsplit, hw, hall, hrest, hlen⟩ := exists_run isSpaceChar c cs
        rw [hc] at hall hrest
        have hrest2 : ∀ d ∈ rest.head?, isSpaceChar d = false := by
          intro d hd; simpa using hrest d hd
        have hrl : rest.length ≤ n := by
          simp only [List.length_cons] at hs hlen
          omega
        rw [hsplit, replaceGo_match reSpaceRun _ w rest i prev hw
          (runOf_eq isSpaceChar w rest hw hall hrest2), List.nil_append, ih rest hrl,
          List.filter_append]
        have : w.filter isAlnum = [] := by
          rw [List.filter_eq_nil_iff]
          intro x hx
          simp [space_not_alnum x (hall x hx)]
        rw [this, List.nil_append]

theorem reCamelStart_nonword (i : Nat) (prev : Option Char) (c : Char) (cs : Text)
    (hc : isWordChar c = false) : reCamelStart i prev (c :: cs) = none := by
  have hu : isUpperAZ c = false := by
    cases hu : isUpperAZ c with
    | false => rfl
    | true => rw [upperAZ_word c hu] at hc; exact absurd hc (by simp)
  simp [reCamelStart, hc, hu]

theorem camel_nonword_run (fn : Text → Nat → Text) (a b : Text) (i : Nat)
    (prev : Option Char) (ha : a ≠ []) (hall : ∀ x ∈ a, isWordChar x = false) :
    replaceGo reCamelStart fn 0 i prev (a ++ b)
      = a ++ replaceGo reCamelStart fn 0 (i + a.length) a.getLast? b := by
  induction a generalizing i prev with
  | nil => exact absurd rfl ha
  | cons x xs ih =>
    show replaceGo reCamelStart fn 0 i prev (x :: (xs ++ b)) = _
    rw [replaceGo_noMatch _ _ _ _ _ _ (reCamelStart_nonword i prev x _ (hall x (by simp)))]
    cases xs with
    | nil => simp
    | cons y ys =>
      rw [ih (i + 1) (some x) (by simp) (fun z hz => hall z (by simp [hz]))]
      simp only [List.length_cons, List.cons_append, List.getLast?_cons_cons]
      have e : i + 1 + (ys.length + 1) = i + (ys.length + 1 + 1) := by omega
      rw [e]

theorem camel_inside_word (a b : Text) (i : Nat) (p : Char) (hi : i ≠ 0)
    (hp : isWordChar p = true) (hall : ∀ x ∈ a, isWordChar x = true) :
    replaceGo reCamelStart
        (fun word index => if index = 0 then toLowerCase word else toUpperCase word)
        0 i (some p) (a ++ b)
      = a ++ replaceGo reCamelStart
          (fun word index => if index = 0 then toLowerCase word else toUpperCase word)
          0 (i + a.length) (if a = [] then some p else a.getLast?) b := by
  induction a generalizing i p with
  | nil => simp
  | cons x xs ih =>
    have hx := hall x (by simp)
    have step : replaceGo reCamelStart
        (fun word index => if index = 0 then toLowerCase word else toUpperCase word)
        0 i (some p) (x :: (xs ++ b))
        = x :: replaceGo reCamelStart
          (fun word index => if index = 0 then toLowerCase word else toUpperCase word)
          0 (i + 1) (some x) (xs ++ b) := by
      cases hu : isUpperAZ x with
      | true =>
        have hre : reCamelStart i (some p) ([x] ++ (xs ++ b)) = some [x].length := by
          simp [reCamelStart, hi, hu]
        have := replaceGo_match reCamelStart
          (fun word index => if index = 0 then toLowerCase word else toUpperCase word)
          [x] (xs ++ b) i (some p) (by simp) hre
        rw [List.singleton_append] at this
        rw [this]
        simp only [hi, if_false, List.length_singleton, List.getLast?_singleton]
        rw [toUpperCase_cons, upperOf_upperAZ x hu]
        rfl
      | false =>
        exact replaceGo_noMatch _ _ _ _ _ _
          (by simp [reCamelStart, hi, hu, atWordBoundary, hp, hx])
    show replaceGo _ _ 0 i (some p) (x :: (xs ++ b)) = _
    rw [step, ih (i + 1) x (by omega) hx (fun z hz => hall z (by simp [hz]))]
    simp only [List.length_cons, List.cons_append]
    have e : i + 1 + xs.length = i + (xs.length + 1) := by omega
    rw [e]
    congr 2
    cases xs with
    | nil => simp
    | cons y ys => simp [List.getLast?_cons_cons]

theorem reCamelStart_wordStart (i : Nat) (prev : Option Char) (x : Char) (cs : Text)
    (hx : isWordChar x = true) (hprev : prev.any isWordChar = false) :
    reCamelStart i prev (x :: cs) = some 1 := by
  unfold reCamelStart
  simp only []
  by_cases h1 : i = 0 ∧ isWordChar x = true
  · rw [if_pos h1]
  · rw [if_neg h1]
    by_cases h2 : isUpperAZ x = true
    · rw [if_pos h2]
    · rw [if_neg h2, if_pos]
      simp [atWordBoundary, hprev, hx]

theorem camel_scan (n : Nat) : ∀ (L : Text), L.length ≤ n → ∀ (i : Nat) (prev : Option Char),
    (prev.any isWordChar = false ∨ ∀ d ∈ L.head?, isWordChar d = false) →
    (replaceGo reCamelStart
        (fun word index => if index = 0 then toLowerCase word else toUpperCase word)
        0 i prev L).filter isAlnum
      = (camelCaseAmendedGo (decide (i = 0)) (segments isWordChar L)).flatten := by
  induction n with
  | zero =>
    intro L hL i prev _
    have : L = [] := List.length_eq_zero.mp (Nat.le_zero.mp hL)
    subst this
    simp [replaceGo, segments, camelCaseAmendedGo]
  | succ n ih =>
    intro L hL i prev hinv
    cases L with
    | nil => simp [replaceGo, segments, camelCaseAmendedGo]
    | cons c cs =>
      obtain ⟨w, rest, hsplit, hw, hall, hrest, hlen⟩ := exists_run isWordChar c cs
      have hrl : rest.length ≤ n := by
        simp only [List.length_cons] at hL hlen
        omega
      have hwl : i + w.length ≠ 0 := by
        have : 0 < w.length := List.length_pos.mpr hw
        omega
      rw [hsplit, segments_run isWordChar (isWordChar c) w rest hw hall hrest]
      simp only [camelCaseAmendedGo, List.flatten_cons]
      cases hc : isWordChar c with
      | true =>
        rw [hc] at hall hrest
        have hprev : prev.any isWordChar = false := by
          rcases hinv with h | h
          · exact h
          · have := h c (by simp)
            rw [hc] at this
            exact absurd this (by simp)
        have hrest2 : ∀ d ∈ rest.head?, isWordChar d = false := by
          intro d hd
          simpa using hrest d hd
        cases w with
        | nil => exact absurd rfl hw
        | cons x xs =>
          have hx := hall x (by simp)
          have hre : reCamelStart i prev ([x] ++ (xs ++ rest)) = some [x].length :=
            reCamelStart_wordStart i prev x _ hx hprev
          have h1 := replaceGo_match reCamelStart
            (fun word index => if index = 0 then toLowerCase word else toUpperCase word)
            [x] (xs ++ rest) i prev (by simp) hre
          rw [List.singleton_append] at h1
          show (replaceGo _ _ 0 i prev (x :: (xs ++ rest))).filter isAlnum = _
          rw [h1]
          simp only [List.length_singleton, List.getLast?_singleton]
          rw [camel_inside_word xs rest (i + 1) x (by omega) hx
            (fun z hz => hall z (by simp [hz]))]
          simp only [List.filter_append]
          have e : i + 1 + xs.length = i + (x :: xs).length := by simp; omega
          rw [e, ih rest hrl (i + (x :: xs).length) _ (Or.inr hrest2)]
          have hrun : isRunOf isWordChar (x :: xs) = true := hx
          simp only [hrun, if_true, hwl, decide_False, List.take_succ_cons, List.take_zero,
            List.drop_succ_cons, List.drop_zero, List.filter_append, List.append_assoc]
          by_cases hi : i = 0
          · simp [hi]
          · simp [hi]
      | false =>
        rw [hc] at hall hrest
        rw [camel_nonword_run _ w rest i prev hw hall]
        have hlast : (w.getLast?).any isWordChar = false := by
          cases hg : w.getLast? with
          | none => rfl
          | some z =>
            have := hall z (List.mem_of_mem_getLast? hg)
            simpa using this
        rw [List.filter_append, ih rest hrl (i + w.length) _ (Or.inl hlast)]
        have hrun : isRunOf isWordChar w = false := by
          cases w with
          | nil => exact absurd rfl hw
          | cons x xs => exact hall x (by simp)
        have hf : w.filter isAlnum = [] := by
          rw [List.filter_eq_nil_iff]
          intro x hx
          simp [nonword_not_alnum x (hall x hx)]
        simp [hrun, hwl, hf]

theorem toCamelCase_eq_amended (text : Text) : toCamelCase text = camelCaseAmended text := by
  unfold toCamelCase camelCaseAmended replaceAll
  rw [replaceGo_nonAlnum, filter_alnum_spaceRun _ _ (le_refl _),
    camel_scan _ _ (le_refl _) 0 none (Or.inl rfl)]
  rfl

theorem toCamelCase_alnum (text : Text) : (toCamelCase text).all isAlnum = true := by
  unfold toCamelCase replaceAll
  rw [replaceGo_nonAlnum, List.all_eq_true]
  intro c hc
  exact (List.mem_filter.mp hc).2

/-- C2, as stated, fails: the characters after the first of a token are not
lower-cased. -/
theorem toCamelCase_upper_input :
    toCamelCase "HELLO WORLD".toList = "hELLOWORLD".toList ∧
      camelCaseSpec "HELLO WORLD".toList = "helloWorld".toList ∧
      toCamelCase "HELLO WORLD".toList ≠ camelCaseSpec "HELLO WORLD".toList := by
  decide

/-- C2, amended: `toCamelCase` concatenates the tokens of the text, the
maximal runs of word characters, where the first character of a token is
lower-cased when the token starts at index 0 and upper-cased otherwise, the
other characters of a token are kept as they are and underscores are dropped;
all separators are removed, the result has only alphanumeric characters, and
`hello world-test` gives `helloWorldTest`. -/
theorem toCamelCase_amended :
    (∀ text : Text, toCamelCase text = camelCaseAmended text) ∧
      (∀ text : Text, (toCamelCase text).all isAlnum = true) ∧
      toCamelCase "hello world-test".toList = "helloWorldTest".toList :=
  ⟨toCamelCase_eq_amended, toCamelCase_alnum, by decide⟩

/-! ### Snake case and kebab case -/

theorem collapse_run (w rest : Text) (hw : w ≠ []) (hall : ∀ x ∈ w, isWordChar x = false)
    (hrest : ∀ d ∈ rest.head?, isWordChar d = true) :
    collapseNonWord (w ++ rest) = ' ' :: collapseNonWord rest := by
  induction w with
  | nil => exact absurd rfl hw
  | cons x xs ih =>
    have hx := hall x (by simp)
    cases xs with
    | nil =>
      cases rest with
      | nil => simp [collapseNonWord, hx]
      | cons d r =>
        have hd := hrest d (by simp)
        show collapseNonWord (x :: d :: r) = _
        rw [collapseNonWord]
        simp [hx, hd]
    | cons y ys =>
      have hy := hall y (by simp)
      show collapseNonWord (x :: (y :: (ys ++ rest))) = _
      rw [collapseNonWord]
      simp only [hx, hy, Bool.false_eq_true, if_false]
      exact ih (by simp) (fun z hz => hall z (by simp [hz]))

theorem collapse_word (c : Char) (cs : Text) (hc : isWordChar c = true) :
    collapseNonWord (c :: cs) = c :: collapseNonWord cs := by
  cases cs <;> simp [collapseNonWord, hc]

theorem replace_nonWordRun (n : Nat) : ∀ (s : Text), s.length ≤ n →
    ∀ (i : Nat) (prev : Option Char),
    replaceGo reNonWordRun (fun _ _ => " ".toList) 0 i prev s = collapseNonWord s := by
  induction n with
  | zero =>
    intro s hs i prev
    have : s = [] := List.length_eq_zero.mp (Nat.le_zero.mp hs)
    subst this
    rfl
  | succ n ih =>
    intro s hs i prev
    cases s with
    | nil => rfl
    | cons c cs =>
      cases hc : isWordChar c with
      | true =>
        rw [replaceGo_noMatch _ _ _ _ _ _
          (runOf_none (fun c => !isWordChar c) c cs (by simp [hc]))]
        rw [ih cs (by simpa using hs), collapse_word c cs hc]
      | false =>
        obtain ⟨w, rest, hsplit, hw, hall, hrest, hlen⟩ := exists_run isWordChar c cs
        rw [hc] at hall hrest
        have hrest2 : ∀ d ∈ rest.head?, isWordChar d = true := by
          intro d hd; simpa using hrest d hd
        have hrl : rest.length ≤ n := by
          simp only [List.length_cons] at hs hlen
          omega
        rw [hsplit, replaceGo_match reNonWordRun _ w rest i prev hw
          (runOf_eq (fun c => !isWordChar c) w rest hw (fun x hx => by simp [hall x hx])
            (fun d hd => by simp [hrest2 d hd])),
          ih rest hrl, collapse_run w rest hw hall hrest2]
        rfl

theorem reSnakeSep_space (i : Nat) (prev : Option Char) (cs : Text) :
    reSnakeSep i prev (' ' :: cs) = some 1 := by
  simp [reSnakeSep]

theorem word_ne_space (d : Char) (hd : isWordChar d = true) : ¬ d.toNat = 32 := by
  simp only [isWordChar, isAlnum, isLowerAZ, isUpperAZ, isDigit09, Bool.or_eq_true,
    Bool.and_eq_true, decide_eq_true_eq] at hd
  omega

theorem reSnakeSep_wordStart (i : Nat) (prev : Option Char) (d : Char) (cs : Text)
    (hd : isWordChar d = true) (hprev : prev.any isWordChar = false) :
    reSnakeSep i prev (d :: cs) = none := by
  unfold reSnakeSep
  simp only []
  rw [if_neg (word_ne_space d hd), if_neg]
  simp [atWordBoundary, hprev, hd]

theorem reSnakeSep_inside (i : Nat) (c d : Char) (cs : Text)
    (hc : isWordChar c = true) (hd : isWordChar d = true) :
    reSnakeSep i (some c) (d :: cs) = if isUpperAZ d then some 0 else none := by
  unfold reSnakeSep
  simp only []
  rw [if_neg (word_ne_space d hd)]
  simp [atWordBoundary, hc, hd]

theorem splitGo_nil (re : Matcher) (skip i : Nat) (prev : Option Char) (fresh : Bool) :
    splitGo re skip i prev fresh [] = [[]] := by
  cases skip <;> rfl

theorem snake_split (L : Text) :
    (∀ (c : Char) (i : Nat), isWordChar c = true →
      pushHead c (splitGo reSnakeSep 0 i (some c) false (collapseNonWord L))
        = snakeTokensAmended (c :: L)) ∧
    (∀ (i : Nat) (prev : Option Char) (fresh : Bool),
      (∀ d ∈ L.head?, isWordChar d = true → prev.any isWordChar = false) →
      splitGo reSnakeSep 0 i prev fresh (collapseNonWord L) = snakeTokensAmended L) := by
  induction L with
  | nil =>
    constructor
    · intro c i hc
      simp [collapseNonWord, splitGo, snakeTokensAmended, hc, pushHead]
    · intro i prev fresh _
      simp [collapseNonWord, splitGo, snakeTokensAmended]
  | cons d r ih =>
    obtain ⟨ihA, ihB⟩ := ih
    have hB : ∀ (i : Nat) (prev : Option Char) (fresh : Bool),
        (∀ e ∈ (d :: r).head?, isWordChar e = true → prev.any isWordChar = false) →
        splitGo reSnakeSep 0 i prev fresh (collapseNonWord (d :: r))
          = snakeTokensAmended (d :: r) := by
      intro i prev fresh hinv
      cases hd : isWordChar d with
      | true =>
        have hprev := hinv d (by simp) hd
        have hcol : collapseNonWord (d :: r) = d :: collapseNonWord r :=
          collapse_word d r hd
        rw [hcol, splitGo, reSnakeSep_wordStart i prev d _ hd hprev]
        exact ihA d (i + 1) hd
      | false =>
        cases r with
        | nil =>
          simp [collapseNonWord, hd, snakeTokensAmended, splitGo, reSnakeSep_space,
            splitGo_nil]
        | cons e r2 =>
          cases he : isWordChar e with
          | true =>
            have hcol : collapseNonWord (d :: e :: r2) = ' ' :: collapseNonWord (e :: r2) := by
              rw [collapseNonWord]; simp [hd, he]
            have hT : snakeTokensAmended (d :: e :: r2) = [] :: snakeTokensAmended (e :: r2) := by
              rw [snakeTokensAmended]; simp [hd, he]
            rw [hcol, hT, splitGo, reSnakeSep_space]
            simp only []
            rw [ihB (i + 1) (some ' ') true (fun _ _ _ => by decide)]
          | false =>
            have hcol : collapseNonWord (d :: e :: r2) = collapseNonWord (e :: r2) := by
              rw [collapseNonWord]; simp [hd, he]
            have hT : snakeTokensAmended (d :: e :: r2) = snakeTokensAmended (e :: r2) := by
              rw [snakeTokensAmended]; simp [hd, he]
            rw [hcol, hT]
            exact ihB i prev fresh (fun x hx hxw => by
              simp only [List.head?_cons, Option.mem_def, Option.some.injEq] at hx
              subst hx
              rw [he] at hxw
              exact absurd hxw (by simp))
    refine ⟨?_, hB⟩
    intro c i hc
    have hT : snakeTokensAmended (c :: d :: r)
        = if isUpperAZ d then [c] :: snakeTokensAmended (d :: r)
          else pushHead c (snakeTokensAmended (d :: r)) := by
      rw [snakeTokensAmended]; simp [hc]
    rw [hT]
    cases hd : isWordChar d with
    | true =>
      have hcol : collapseNonWord (d :: r) = d :: collapseNonWord r :=
        collapse_word d r hd
      rw [hcol, splitGo, reSnakeSep_inside i c d _ hc hd]
      cases hu : isUpperAZ d with
      | true =>
        simp only [if_true, Bool.false_eq_true, if_false]
        rw [ihA d (i + 1) hd]
        rfl
      | false =>
        simp only [Bool.false_eq_true, if_false]
        rw [ihA d (i + 1) hd]
    | false =>
      have hu : isUpperAZ d = false := by
        cases hu : isUpperAZ d with
        | false => rfl
        | true => rw [upperAZ_word d hu] at hd; exact absurd hd (by simp)
      rw [hB i (some c) false (fun x hx hxw => by
        simp only [List.head?_cons, Option.mem_def, Option.some.injEq] at hx
        subst hx
        rw [hd] at hxw
        exact absurd hxw (by simp))]
      simp [hu]

theorem split_snake (text : Text) :
    split reSnakeSep (replaceAll reNonWordRun (fun _ _ => " ".toList) text)
      = snakeTokensAmended text := by
  unfold replaceAll
  rw [replace_nonWordRun _ _ (le_refl _)]
  have h := (snake_split text).2 0 none true (fun _ _ _ => rfl)
  unfold split
  cases hc : collapseNonWord text with
  | nil =>
    rw [hc] at h
    rw [← h]
    simp [reSnakeSep, splitGo]
  | cons x xs =>
    rw [hc] at h
    exact h

theorem toSnakeCase_eq_amended (text : Text) : toSnakeCase text = snakeCaseAmended text := by
  unfold toSnakeCase snakeCaseAmended
  rw [split_snake]

theorem replace_underscore (s : Text) (i : Nat) (prev : Option Char) :
    replaceGo reUnderscore (fun _ _ => "-".toList) 0 i prev s = s.map dashForUnderscore := by
  induction s generalizing i prev with
  | nil => rfl
  | cons c cs ih =>
    by_cases hc : c.toNat = 95
    · have hre : reUnderscore i prev ([c] ++ cs) = some [c].length := by
        simp [reUnderscore, hc]
      have := replaceGo_match reUnderscore (fun _ _ => "-".toList) [c] cs i prev (by simp) hre
      rw [List.singleton_append] at this
      rw [this, ih]
      simp [dashForUnderscore, hc]
    · rw [replaceGo_noMatch _ _ _ _ _ _ (by simp [reUnderscore, hc]), ih]
      simp [dashForUnderscore, hc]

theorem toKebabCase_eq_map (text : Text) :
    toKebabCase text = (toSnakeCase text).map dashForUnderscore := by
  unfold toKebabCase replaceAll
  exact replace_underscore _ 0 none

/-- C3, as stated, fails: a leading separator contributes a `_`, a text with no
word character gives `_`, and a piece also ends before an upper-case letter
that follows an upper-case letter. -/
theorem toSnakeCase_leading_separator :
    toSnakeCase " a".toList = "_a".toList ∧
      snakeCaseSpec " a".toList = "a".toList ∧
      toSnakeCase " a".toList ≠ snakeCaseSpec " a".toList ∧
      toSnakeCase "!!!".toList = "_".toList ∧
      toSnakeCase "ABC".toList = "a_b_c".toList := by
  decide

theorem snakeTokensAmended_nonword (text : Text) (hne : text ≠ [])
    (h : text.all (fun c => !isWordChar c) = true) : snakeTokensAmended text = [[], []] := by
  induction text with
  | nil => exact absurd rfl hne
  | cons c cs ih =>
    have hc : isWordChar c = false := by
      have := List.all_eq_true.mp h c (by simp)
      simpa using this
    cases cs with
    | nil => simp [snakeTokensAmended, hc]
    | cons d r =>
      have hd : isWordChar d = false := by
        have := List.all_eq_true.mp h d (by simp)
        simpa using this
      have hrest : (d :: r).all (fun c => !isWordChar c) = true := by
        rw [List.all_eq_true] at h ⊢
        intro x hx
        exact h x (by simp [hx])
      rw [snakeTokensAmended]
      simp only [hc, hd, Bool.false_eq_true, if_false]
      exact ih (by simp) hrest

/-- C3, amended: `toSnakeCase` joins with `_` all the pieces of the text, each
lower-cased, where every run of non-word characters is one separator, a piece
also ends before each upper-case letter that follows a word character, and a
leading or trailing separator leaves an empty piece, so a `_`, at that end;
`toKebabCase` is the same result with every `_` replaced by `-`; a text that
is not empty and has no word character gives `_`. -/
theorem toSnakeCase_amended :
    (∀ text : Text, toSnakeCase text = snakeCaseAmended text) ∧
      (∀ text : Text, toKebabCase text = (toSnakeCase text).map dashForUnderscore) ∧
      (∀ text : Text, text ≠ [] → text.all (fun c => !isWordChar c) = true →
        toSnakeCase text = "_".toList) ∧
      toSnakeCase "Hello World-Test".toList = "hello_world_test".toList ∧
      toKebabCase "Hello World-Test".toList = "hello-world-test".toList := by
  refine ⟨toSnakeCase_eq_amended, toKebabCase_eq_map, ?_, by decide, by decide⟩
  intro text hne h
  rw [toSnakeCase_eq_amended, snakeCaseAmended, snakeTokensAmended_nonword text hne h]
  rfl

/-- Witness of C3, amended: a text of punctuation only. -/
theorem toSnakeCase_amended_witness : toSnakeCase "?!".toList = "_".toList :=
  toSnakeCase_amended.2.2.1 "?!".toList (by decide) (by decide)

/-! ### The name with its prefix -/

theorem length_dropWhile_le (p : Char → Bool) (s : Text) : (s.dropWhile p).length ≤ s.length :=
  (List.dropWhile_sublist p).length_le

theorem map_pair_some (o : Option (Text × Text)) (x : Char) (t rest : Text)
    (h : o.map (fun r => (x :: r.1, r.2)) = some (t, rest)) :
    ∃ t0, o = some (t0, rest) := by
  cases o with
  | none => simp at h
  | some r =>
    simp only [Option.map_some', Option.some.injEq, Prod.mk.injEq] at h
    exact ⟨r.1, by rw [← h.2]⟩

theorem parseStringBody_consumes (s : Text) : ∀ (t rest : Text),
    parseStringBody s = some (t, rest) → rest.length < s.length := by
  induction s using parseStringBody.induct with
  | case1 => intro t rest h; simp [parseStringBody] at h
  | case2 c tail hc =>
    intro t rest h
    unfold parseStringBody at h
    rw [if_pos hc] at h
    simp only [Option.some.injEq, Prod.mk.injEq] at h
    rw [← h.2]; simp
  | case3 c hc1 hc2 =>
    intro t rest h
    unfold parseStringBody at h
    simp [hc1, hc2] at h
  | case4 c hc1 hc2 e he h1 h2 h3 h4 rest3 a b c2 d hd hc hb ha ih =>
    intro t rest h
    unfold parseStringBody at h
    simp only [hc1, hc2, he, if_true, if_false, ha, hb, hc, hd] at h
    obtain ⟨t0, h0⟩ := map_pair_some _ _ _ _ h
    have := ih t0 rest h0
    simp only [List.length_cons]
    omega
  | case5 c hc1 hc2 e he h1 h2 h3 h4 rest3 hno =>
    intro t rest h
    unfold parseStringBody at h
    simp only [hc1, hc2, he, if_true, if_false] at h
    cases ha : hexValue h1 with
    | none => simp [ha] at h
    | some a =>
      cases hb : hexValue h2 with
      | none => simp [ha, hb] at h
      | some b =>
        cases hc : hexValue h3 with
        | none => simp [ha, hb, hc] at h
        | some c2 =>
          cases hd : hexValue h4 with
          | none => simp [ha, hb, hc, hd] at h
          | some d => exact (hno a b c2 d ha hb hc hd).elim
  | case6 c hc1 hc2 e rest2 he hno =>
    intro t rest h
    unfold parseStringBody at h
    simp only [hc1, hc2, he, if_true, if_false] at h
    match rest2, hno, h with
    | h1 :: h2 :: h3 :: h4 :: rest3, hno, _ => exact (hno h1 h2 h3 h4 rest3 rfl).elim
    | [], _, h => simp at h
    | [_], _, h => simp at h
    | [_, _], _, h => simp at h
    | [_, _, _], _, h => simp at h
  | case7 c hc1 hc2 e rest2 he plain x hx ih =>
    intro t rest h
    unfold parseStringBody at h
    simp only [hc1, hc2, he, if_true, if_false] at h
    have hp : plain = some x := hx
    simp only [plain] at hp
    rw [hp] at h
    simp only [] at h
    obtain ⟨t0, h0⟩ := map_pair_some _ _ _ _ h
    have := ih t0 rest h0
    simp only [List.length_cons]
    omega
  | case8 c hc1 hc2 e rest2 he plain hx =>
    intro t rest h
    unfold parseStringBody at h
    simp only [hc1, hc2, he, if_true, if_false] at h
    have hp : plain = none := hx
    simp only [plain] at hp
    rw [hp] at h
    simp at h
  | case9 c tail hc1 hc2 hlt =>
    intro t rest h
    unfold parseStringBody at h
    simp [hc1, hc2, hlt] at h
  | case10 c tail hc1 hc2 hlt ih =>
    intro t rest h
    unfold parseStringBody at h
    simp only [hc1, hc2, hlt, if_false] at h
    obtain ⟨t0, h0⟩ := map_pair_some _ _ _ _ h
    have := ih t0 rest h0
    simp only [List.length_cons]
    omega

theorem parseNumber_consumes (s : Text) (v : Json) (rest : Text)
    (h : parseNumber s = some (v, rest)) : rest.length < s.length := by
  unfold parseNumber at h
  simp only [] at h
  have hs1 : (if s.head? = some '-' then s.drop 1 else s).length ≤ s.length := by
    split
    · simp
    · exact le_refl _
  generalize (if s.head? = some '-' then s.drop 1 else s) = s1 at h hs1
  have htw : (s1.takeWhile isDigit09).length ≤ s1.length :=
    (List.takeWhile_sublist isDigit09).length_le
  split_ifs at h with h1 h2 h3 h4 h5
  all_goals
    try (simp only [Option.some.injEq, Prod.mk.injEq] at h)
    try (obtain ⟨_, hr⟩ := h)
    try (subst hr)
    try (have hpos : 0 < (s1.takeWhile isDigit09).length :=
          List.length_pos.mpr (fun hnil => h1 (Or.inl hnil)))
    try (simp only [List.length_drop])
    try omega

theorem parseScalar_consumes (s : Text) (v : Json) (rest : Text)
    (h : parseScalar s = some (v, rest)) : rest.length < s.length := by
  unfold parseScalar at h
  cases s with
  | nil => simp at h
  | cons c r =>
    simp only [] at h
    split_ifs at h with h1 h2 h3 h4
    · cases hp : parseStringBody r with
      | none => simp [hp] at h
      | some p =>
        simp only [hp, Option.map_some', Option.some.injEq, Prod.mk.injEq] at h
        have := parseStringBody_consumes r p.1 p.2 hp
        rw [← h.2]
        simp only [List.length_cons]
        omega
    · simp only [Option.some.injEq, Prod.mk.injEq] at h
      rw [← h.2]; simp; omega
    · simp only [Option.some.injEq, Prod.mk.injEq] at h
      rw [← h.2]; simp; omega
    · simp only [Option.some.injEq, Prod.mk.injEq] at h
      rw [← h.2]; simp; omega
    · exact parseNumber_consumes _ v rest h

theorem parseKey_consumes (s key rest : Text) (h : parseKey s = some (key, rest)) :
    rest.length < s.length := by
  unfold parseKey at h
  have hs := length_dropWhile_le isJsonSpace s
  cases hd : s.dropWhile isJsonSpace with
  | nil => simp [hd] at h
  | cons q afterQuote =>
    rw [hd] at hs
    simp only [hd] at h
    split_ifs at h with hq
    cases hp : parseStringBody afterQuote with
    | none => simp [hp] at h
    | some p =>
      obtain ⟨k, r⟩ := p
      have hc := parseStringBody_consumes afterQuote k r hp
      have hr := length_dropWhile_le isJsonSpace r
      simp only [hp] at h
      cases hd2 : r.dropWhile isJsonSpace with
      | nil => simp [hd2] at h
      | cons colon rest2 =>
        rw [hd2] at hr
        simp only [hd2] at h
        split_ifs at h with hcol
        simp only [Option.some.injEq, Prod.mk.injEq] at h
        rw [← h.2]
        simp only [List.length_cons] at hs hr
        omega

theorem parseJson_consumes (fuel : Nat) : ∀ (mode : ParseMode) (s : Text) (v : Json)
    (rest : Text), parseJson fuel mode s = some (v, rest) → rest.length < s.length := by
  induction fuel with
  | zero => intro mode s v rest h; simp [parseJson] at h
  | succ fuel ih =>
    intro mode s v rest h
    cases mode with
    | value =>
      rw [parseJson] at h
      have hs := length_dropWhile_le isJsonSpace s
      cases hd : s.dropWhile isJsonSpace with
      | nil => simp [hd] at h
      | cons c r =>
        rw [hd] at hs
        simp only [hd] at h
        simp only [List.length_cons] at hs
        have hr := length_dropWhile_le isJsonSpace r
        split_ifs at h with h1 h2
        · cases hd2 : r.dropWhile isJsonSpace with
          | nil => simp [hd2] at h
          | cons d r2 =>
            rw [hd2] at hr
            simp only [hd2] at h
            simp only [List.length_cons] at hr
            split_ifs at h with h3
            · simp only [Option.some.injEq, Prod.mk.injEq] at h
              rw [← h.2]; omega
            · have := ih _ _ _ _ h
              omega
        · cases hd2 : r.dropWhile isJsonSpace with
          | nil => simp [hd2] at h
          | cons d r2 =>
            rw [hd2] at hr
            simp only [hd2] at h
            simp only [List.length_cons] at hr
            split_ifs at h with h3
            · simp only [Option.some.injEq, Prod.mk.injEq] at h
              rw [← h.2]; omega
            · have := ih _ _ _ _ h
              omega
        · have := parseScalar_consumes _ _ _ h
          simp only [List.length_cons] at this
          omega
    | items acc =>
      rw [parseJson] at h
      cases hv : parseJson fuel ParseMode.value s with
      | none => simp [hv] at h
      | some p =>
        obtain ⟨v1, r1⟩ := p
        have h1 := ih _ _ _ _ hv
        simp only [hv] at h
        have hr := length_dropWhile_le isJsonSpace r1
        cases hd : r1.dropWhile isJsonSpace with
        | nil => simp [hd] at h
        | cons d r2 =>
          rw [hd] at hr
          simp only [hd] at h
          simp only [List.length_cons] at hr
          split_ifs at h with h2 h3
          · have := ih _ _ _ _ h
            omega
          · simp only [Option.some.injEq, Prod.mk.injEq] at h
            rw [← h.2]; omega
    | members acc =>
      rw [parseJson] at h
      cases hk : parseKey s with
      | none => simp [hk] at h
      | some kp =>
        obtain ⟨key, r0⟩ := kp
        have h0 := parseKey_consumes _ _ _ hk
        simp only [hk] at h
        cases hv : parseJson fuel ParseMode.value r0 with
        | none => simp [hv] at h
        | some p =>
          obtain ⟨v1, r1⟩ := p
          have h1 := ih _ _ _ _ hv
          simp only [hv] at h
          have hr := length_dropWhile_le isJsonSpace r1
          cases hd : r1.dropWhile isJsonSpace with
          | nil => simp [hd] at h
          | cons d r2 =>
            rw [hd] at hr
            simp only [hd] at h
            simp only [List.length_cons] at hr
            split_ifs at h with h2 h3
            · have := ih _ _ _ _ h
              omega
            · simp only [Option.some.injEq, Prod.mk.injEq] at h
              rw [← h.2]; omega

theorem parseJson_fuel (fuel : Nat) : ∀ (mode : ParseMode) (s : Text) (v : Json)
    (rest : Text), parseJson fuel mode s = some (v, rest) →
    ∀ fuel2 : Nat, 2 * (s.length - rest.length) + 2 ≤ fuel2 →
      parseJson fuel2 mode s = some (v, rest) := by
  induction fuel with
  | zero => intro mode s v rest h; simp [parseJson] at h
  | succ fuel ih =>
    intro mode s v rest h fuel2 hb
    have hcons := parseJson_consumes _ _ _ _ _ h
    obtain ⟨g, rfl⟩ : ∃ g, fuel2 = g + 1 := ⟨fuel2 - 1, by omega⟩
    cases mode with
    | value =>
      rw [parseJson] at h ⊢
      have hs := length_dropWhile_le isJsonSpace s
      cases hd : s.dropWhile isJsonSpace with
      | nil => simp [hd] at h
      | cons c r =>
        rw [hd] at hs
        simp only [hd] at h ⊢
        simp only [List.length_cons] at hs
        have hr := length_dropWhile_le isJsonSpace r
        split_ifs at h ⊢ with h1 h2
        · cases hd2 : r.dropWhile isJsonSpace with
          | nil => simp [hd2] at h
          | cons d r2 =>
            rw [hd2] at hr
            simp only [hd2] at h ⊢
            simp only [List.length_cons] at hr
            split_ifs at h ⊢ with h3
            · exact h
            · have hc2 := parseJson_consumes _ _ _ _ _ h
              exact ih _ _ _ _ h g (by omega)
        · cases hd2 : r.dropWhile isJsonSpace with
          | nil => simp [hd2] at h
          | cons d r2 =>
            rw [hd2] at hr
            simp only [hd2] at h ⊢
            simp only [List.length_cons] at hr
            split_ifs at h ⊢ with h3
            · exact h
            · have hc2 := parseJson_consumes _ _ _ _ _ h
              exact ih _ _ _ _ h g (by omega)
        · exact h
    | items acc =>
      rw [parseJson] at h ⊢
      cases hv : parseJson fuel ParseMode.value s with
      | none => simp [hv] at h
      | some p =>
        obtain ⟨v1, r1⟩ := p
        have h1 := parseJson_consumes _ _ _ _ _ hv
        simp only [hv] at h
        have hr := length_dropWhile_le isJsonSpace r1
        cases hd : r1.dropWhile isJsonSpace with
        | nil => simp [hd] at h
        | cons d r2 =>
          rw [hd] at hr
          simp only [hd] at h
          simp only [List.length_cons] at hr
          have hrest : rest.length ≤ r2.length := by
            split_ifs at h with h2 h3
            · exact le_of_lt (parseJson_consumes _ _ _ _ _ h)
            · simp only [Option.some.injEq, Prod.mk.injEq] at h
              rw [← h.2]
          rw [ih _ _ _ _ hv g (by omega)]
          simp only [hd]
          split_ifs at h ⊢ with h2 h3
          · exact ih _ _ _ _ h g (by omega)
          · exact h
    | members acc =>
      rw [parseJson] at h ⊢
      cases hk : parseKey s with
      | none => simp [hk] at h
      | some kp =>
        obtain ⟨key, r0⟩ := kp
        have h0 := parseKey_consumes _ _ _ hk
        simp only [hk] at h ⊢
        cases hv : parseJson fuel ParseMode.value r0 with
        | none => simp [hv] at h
        | some p =>
          obtain ⟨v1, r1⟩ := p
          have h1 := parseJson_consumes _ _ _ _ _ hv
          simp only [hv] at h
          have hr := length_dropWhile_le isJsonSpace r1
          cases hd : r1.dropWhile isJsonSpace with
          | nil => simp [hd] at h
          | cons d r2 =>
            rw [hd] at hr
            simp only [hd] at h
            simp only [List.length_cons] at hr
            have hrest : rest.length ≤ r2.length := by
              split_ifs at h with h2 h3
              · exact le_of_lt (parseJson_consumes _ _ _ _ _ h)
              · simp only [Option.some.injEq, Prod.mk.injEq] at h
                rw [← h.2]
            rw [ih _ _ _ _ hv g (by omega)]
            simp only [hd]
            split_ifs at h ⊢ with h2 h3
            · exact ih _ _ _ _ h g (by omega)
            · exact h

/-- The bound on the depth used by `jsonParse` is enough: a text that the
recursive descent reads as one value under any bound is read under that of
`jsonParse`. -/
theorem jsonParse_of_fuel (fuel : Nat) (text : Text) (v : Json) (rest : Text)
    (h : parseJson fuel ParseMode.value text = some (v, rest))
    (hrest : rest.dropWhile isJsonSpace = []) : jsonParse text = some v := by
  unfold jsonParse
  rw [parseJson_fuel fuel _ _ _ _ h (2 * text.length + 2) (by omega)]
  simp [hrest]

theorem jsonParse_none_of_fuel (text : Text) (h : jsonParse text = none) (fuel : Nat) :
    ∀ (v : Json) (rest : Text), parseJson fuel ParseMode.value text = some (v, rest) →
      rest.dropWhile isJsonSpace ≠ [] := by
  intro v rest hp hrest
  rw [jsonParse_of_fuel fuel text v rest hp hrest] at h
  exact absurd h (by simp)

/-- C9, as stated, fails: a stored string that is not JSON makes the load
throw, and a stored number is loaded as that number, not as the empty
sequence. -/
theorem loadHistory_throws_on_bad_json :
    loadHistory (some "oops".toList) = Loaded.threw ∧
      loadHistory (some "5".toList) = Loaded.value (Json.num false 5 0) :=
  ⟨rfl, rfl⟩

/-- C9, amended: loading gives the empty sequence when the key is absent; on a
stored string that is JSON, read as one value with only white space after it,
it gives the parsed value, replaced by the empty sequence when that value is
falsy, so a stored sequence is loaded as it is; and it throws exactly on the
stored strings that are not JSON. -/
theorem loadHistory_amended :
    loadHistory none = Loaded.value (Json.arr []) ∧
    (∀ (s : Text) (fuel : Nat) (v : Json) (rest : Text),
      parseJson fuel ParseMode.value s = some (v, rest) →
      rest.dropWhile isJsonSpace = [] →
      loadHistory (some s) = Loaded.value (if v.isFalsy then Json.arr [] else v)) ∧
    (∀ (s : Text) (fuel : Nat) (items : List Json) (rest : Text),
      parseJson fuel ParseMode.value s = some (Json.arr items, rest) →
      rest.dropWhile isJsonSpace = [] →
      loadHistory (some s) = Loaded.value (Json.arr items)) ∧
    (∀ s : Text, loadHistory (some s) = Loaded.threw ↔
      ∀ (fuel : Nat) (v : Json) (rest : Text),
        parseJson fuel ParseMode.value s = some (v, rest) →
        rest.dropWhile isJsonSpace ≠ []) := by
  have hvalid : ∀ (s : Text) (fuel : Nat) (v : Json) (rest : Text),
      parseJson fuel ParseMode.value s = some (v, rest) →
      rest.dropWhile isJsonSpace = [] →
      loadHistory (some s) = Loaded.value (if v.isFalsy then Json.arr [] else v) := by
    intro s fuel v rest h hrest
    simp [loadHistory, jsonParse_of_fuel fuel s v rest h hrest]
  refine ⟨rfl, hvalid, ?_, ?_⟩
  · intro s fuel items rest h hrest
    rw [hvalid s fuel _ rest h hrest]
    simp [Json.isFalsy]
  · intro s
    constructor
    · intro hthrew
      have hnone : jsonParse s = none := by
        cases hj : jsonParse s with
        | none => rfl
        | some v => simp [loadHistory, hj] at hthrew
      intro fuel v rest
      exact jsonParse_none_of_fuel s hnone fuel v rest
    · intro hall
      cases hj : jsonParse s with
      | none => simp [loadHistory, hj]
      | some v =>
        exfalso
        unfold jsonParse at hj
        cases hp : parseJson (2 * s.length + 2) ParseMode.value s with
        | none => simp [hp] at hj
        | some p =>
          obtain ⟨v1, r1⟩ := p
          simp only [hp] at hj
          split_ifs at hj with hb
          exact hall _ v1 r1 hp hb

/-- Witness of C9, amended: a stored sequence of one entry. -/
theorem loadHistory_amended_witness :
    loadHistory (some "[\x7b\"text\":\"Abc\",\"type\":\"Title Case\",\"time\":17\x7d]".toList)
      = Loaded.value (Json.arr [Json.obj [("text".toList, Json.str "Abc".toList),
          ("type".toList, Json.str "Title Case".toList),
          ("time".toList, Json.num false 17 0)]]) :=
  loadHistory_amended.2.2.1
    "[\x7b\"text\":\"Abc\",\"type\":\"Title Case\",\"time\":17\x7d]".toList 8 _ [] rfl rfl

end CaseConverter
